import Mathlib

/-!
# Verification of the MimicMotion geometry core

Shallow embedding of the MimicMotion facial-asymmetry core
(`src/frontend/services/`) together with proofs about it.

Conventions:
* numpy float arithmetic is modelled exactly over `Rat` (or `Real` where a
  square root is required); machine indices are `Nat`.
* Python `IndexError` is modelled by functions returning `Except` / `Option`.
* External library calls (numpy SVD, `np.linalg.norm` inside the asymmetry
  calculator, cv2 Gaussian blur) are passed in as explicit function
  parameters; the properties those libraries guarantee become hypotheses.
-/

namespace MimicMotion

set_option maxRecDepth 40000
set_option maxHeartbeats 4000000

/-! ## `services/nodes.py` — bilateral correspondence tables -/

def LEFT_RIGHT_PAIRS : List (Nat × Nat) := [
  (3, 248), (7, 249), (20, 250), (21, 251), (22, 252), (23, 253), (24, 254),
  (25, 255), (26, 256), (27, 257), (28, 258), (29, 259), (30, 260), (31, 261),
  (32, 262), (33, 263), (34, 264), (35, 265), (36, 266), (37, 267), (38, 268),
  (39, 269), (40, 270), (41, 271), (42, 272), (43, 273), (44, 274), (45, 275),
  (46, 276), (47, 277), (48, 278), (49, 279), (50, 280), (51, 281), (52, 282),
  (53, 283), (54, 284), (55, 285), (56, 286), (57, 287), (58, 288), (59, 289),
  (60, 290), (61, 291), (62, 292), (63, 293), (64, 294), (65, 295), (66, 296),
  (67, 297), (68, 298), (69, 299), (70, 300), (71, 301), (72, 302), (73, 303),
  (74, 304), (75, 305), (76, 306), (77, 307), (78, 308), (79, 309), (80, 310),
  (81, 311), (82, 312), (83, 313), (84, 314), (85, 315), (86, 316), (87, 317),
  (88, 318), (89, 319), (90, 320), (91, 321), (92, 322), (93, 323), (95, 324),
  (96, 325), (97, 326), (98, 327), (99, 328), (100, 329), (101, 330), (102, 331),
  (103, 332), (104, 333), (105, 334), (106, 335), (107, 336), (108, 337), (109, 338),
  (110, 339), (111, 340), (112, 341), (113, 342), (114, 343), (115, 344), (116, 345),
  (117, 346), (118, 347), (119, 348), (120, 349), (121, 350), (122, 351), (123, 352),
  (124, 353), (125, 354), (126, 355), (127, 356), (128, 357), (129, 358), (130, 359),
  (131, 360), (132, 361), (133, 362), (134, 363), (135, 364), (136, 365), (137, 366),
  (138, 367), (139, 368), (140, 369), (141, 370), (142, 371), (143, 372), (144, 373),
  (145, 374), (146, 375), (147, 376), (148, 377), (149, 378), (150, 379), (153, 380),
  (154, 381), (155, 382), (156, 383), (157, 384), (158, 385), (159, 386), (160, 387),
  (161, 388), (162, 389), (163, 390), (165, 391), (166, 392), (167, 393), (169, 394),
  (170, 395), (171, 396), (172, 397), (173, 398), (174, 399), (176, 400), (177, 401),
  (178, 402), (179, 403), (180, 404), (181, 405), (182, 406), (183, 407), (184, 408),
  (185, 409), (186, 410), (187, 411), (188, 412), (189, 413), (190, 414), (191, 415),
  (192, 416), (193, 417), (194, 418), (196, 419), (198, 420), (201, 421), (202, 422),
  (203, 423), (204, 424), (205, 425), (206, 426), (207, 427), (208, 428), (209, 429),
  (210, 430), (211, 431), (212, 432), (213, 433), (214, 434), (215, 435), (216, 436),
  (217, 437), (218, 438), (219, 439), (220, 440), (221, 441), (222, 442), (223, 443),
  (224, 444), (225, 445), (226, 446), (227, 447), (228, 448), (229, 449), (230, 450),
  (231, 451), (232, 452), (233, 453), (234, 454), (235, 455), (236, 456), (237, 457),
  (238, 458), (239, 459), (240, 460), (241, 461), (242, 462), (243, 463), (244, 464),
  (245, 465), (246, 466), (247, 467)]

def MIDLINE_INDICES : List Nat := [
  0, 1, 2, 4, 5, 6, 8, 9, 10, 11, 12, 13, 14, 15, 16, 17, 18, 19, 94, 151, 152, 164, 168, 175, 195, 197, 199, 200]


def LEFT_INDICES : List Nat := LEFT_RIGHT_PAIRS.map (fun lr => lr.1)

def RIGHT_INDICES : List Nat := LEFT_RIGHT_PAIRS.map (fun lr => lr.2)

/-- `LEFT_LANDMARKS = frozenset(LEFT_INDICES)`; membership model. -/
def LEFT_LANDMARKS : List Nat := LEFT_INDICES

/-- `RIGHT_LANDMARKS = frozenset(RIGHT_INDICES)`; membership model. -/
def RIGHT_LANDMARKS : List Nat := RIGHT_INDICES

/-- `MIDLINE_LANDMARKS = frozenset(MIDLINE_INDICES)`; membership model. -/
def MIDLINE_LANDMARKS : List Nat := MIDLINE_INDICES

/-! ## `services/calculate.py` — the `_FLIP_MAP` dictionary

`_FLIP_MAP[left] = right; _FLIP_MAP[right] = left` for every pair.
All 440 keys are distinct, so association-list lookup models the dict. -/

def _FLIP_MAP : List (Nat × Nat) :=
  LEFT_RIGHT_PAIRS.foldr (fun lr acc => (lr.1, lr.2) :: (lr.2, lr.1) :: acc) []

/-- `_flipped_index(index)` = `_FLIP_MAP.get(index)`. -/
def _flipped_index (i : Nat) : Option Nat :=
  _FLIP_MAP.lookup i

/-- Association-list lookup only returns stored bindings. -/
theorem mem_of_lookup_eq_some {l : List (Nat × Nat)} {k v : Nat}
    (h : l.lookup k = some v) : (k, v) ∈ l := by
  induction l with
  | nil => simp [List.lookup] at h
  | cons a t ih =>
    rw [List.lookup] at h
    by_cases hk : k = a.1
    · subst hk
      simp at h
      subst h
      exact List.mem_cons_self _ _
    · have hbeq : (k == a.1) = false := by
        exact beq_false_of_ne hk
      rw [hbeq] at h
      exact List.mem_cons_of_mem _ (ih h)

/-- Every stored binding flips back: checked by evaluation over the table. -/
theorem flip_table_involutive :
    ∀ p ∈ _FLIP_MAP, _FLIP_MAP.lookup p.2 = some p.1 := by decide

/-- C6: the bilateral correspondence map built from `LEFT_RIGHT_PAIRS` is an
involution (`flip (flip i) = i` whenever `i` has a partner), and the label
sets `LEFT_LANDMARKS`, `RIGHT_LANDMARKS`, `MIDLINE_LANDMARKS` are pairwise
disjoint. -/
theorem C6_flip_involution_and_disjoint_label_sets :
    (∀ i j, _flipped_index i = some j → _flipped_index j = some i) ∧
    (∀ i ∈ LEFT_LANDMARKS, i ∉ RIGHT_LANDMARKS) ∧
    (∀ i ∈ LEFT_LANDMARKS, i ∉ MIDLINE_LANDMARKS) ∧
    (∀ i ∈ RIGHT_LANDMARKS, i ∉ MIDLINE_LANDMARKS) := by
  refine ⟨?_, by decide, by decide, by decide⟩
  intro i j h
  exact flip_table_involutive (i, j) (mem_of_lookup_eq_some h)

/-- Concrete instance of C6: landmark 3 pairs with 248 and flips back. -/
theorem C6_flip_involution_witness :
    _flipped_index 248 = some 3 :=
  C6_flip_involution_and_disjoint_label_sets.1 3 248 (by decide)

/-! ## `services/pipeline.py` — `Pipeline._detect_landmarks`

```python
landmarks = self.detector.detect(frame)
if landmarks is not None:
    self._last_landmarks = landmarks
else:
    landmarks = self._last_landmarks
return landmarks
```

Modelled as a transition on the `_last_landmarks` field: given the stored
value and this frame's detector result, return the effective landmark set
together with the new stored value.  `L` abstracts the landmark array type. -/

def _detect_landmarks {L : Type} (last : Option L) (detected : Option L) :
    Option L × Option L :=
  match detected with
  | some lm => (some lm, some lm)
  | none => (last, last)

/-- Run `_detect_landmarks` over a sequence of per-frame detector results,
starting from stored value `last`, collecting each frame's effective
landmark set. -/
def detectRun {L : Type} (last : Option L) : List (Option L) → List (Option L)
  | [] => []
  | d :: ds =>
    let r := _detect_landmarks last d
    r.1 :: detectRun r.2 ds

/-- The most recent successful detection in `ds`, defaulting to `last`. -/
def lastDetected {L : Type} (last : Option L) : List (Option L) → Option L
  | [] => last
  | d :: ds =>
    lastDetected (match d with | some x => some x | none => last) ds

/-- Frame-by-frame description of `detectRun`: a detected frame is used
as-is, an undetected frame falls back to the most recent detection. -/
theorem detectRun_get? {L : Type} (ds : List (Option L)) (last : Option L)
    (i : Nat) :
    (detectRun last ds).get? i =
      (ds.get? i).map (fun d => match d with
        | some x => some x
        | none => lastDetected last (ds.take i)) := by
  induction ds generalizing last i with
  | nil => simp [detectRun]
  | cons d t ih =>
    cases i with
    | zero => cases d <;> simp [detectRun, _detect_landmarks, lastDetected]
    | succ n =>
      cases d with
      | none => simpa [detectRun, _detect_landmarks, lastDetected] using ih last n
      | some x =>
        simpa [detectRun, _detect_landmarks, lastDetected] using ih (some x) n

/-- C7: starting from a fresh pipeline (`_last_landmarks = None`), whenever
frame `i` yields no detection but some earlier frame detected successfully,
the effective landmark set of frame `i` is exactly the most recent
successfully detected set. -/
theorem C7_stale_data_fallback {L : Type} (ds : List (Option L)) (i : Nat)
    (prev : L)
    (hnone : ds.get? i = some none)
    (hprev : @lastDetected L none (ds.take i) = some prev) :
    (@detectRun L none ds).get? i = some (some prev) := by
  rw [detectRun_get?, hnone]
  simp [hprev]

/-- Concrete instance of C7: for detections `[some 1, none, some 3]` the
second frame's effective landmark set is `some 1`. -/
theorem C7_stale_data_fallback_witness :
    (@detectRun Nat none [some 1, none, some 3]).get? 1 =
      some (some 1) :=
  C7_stale_data_fallback [some 1, none, some 3] 1 1 rfl rfl

/-! ## `services/landmarks.py` — `FaceMeshDetector.detect` smoothing

```python
if self._smooth_landmarks is None:
    self._smooth_landmarks = cur
else:
    prev = self._smooth_landmarks
    alpha = self.cfg.mp.smoothing_alpha
    self._smooth_landmarks = alpha * prev + (1 - alpha) * cur
```

The numpy arrays are modelled as flat lists of rationals (numpy's `*`, `+`
are elementwise); the stored `_smooth_landmarks` field is the `Option`
state. -/

def detect_smooth (alpha : ℚ) (state : Option (List ℚ)) (cur : List ℚ) :
    List ℚ :=
  match state with
  | none => cur
  | some prev => List.zipWith (fun p c => alpha * p + (1 - alpha) * c) prev cur

/-- Smoothed state after feeding the constant landmark array `c` for `n`
frames, starting from stored state `s0`. -/
def smoothIter (alpha : ℚ) (s0 c : List ℚ) : Nat → List ℚ
  | 0 => s0
  | n + 1 => detect_smooth alpha (some (smoothIter alpha s0 c n)) c

theorem smoothIter_length (alpha : ℚ) (s0 c : List ℚ)
    (hlen : s0.length = c.length) :
    ∀ n, (smoothIter alpha s0 c n).length = c.length := by
  intro n
  induction n with
  | zero => exact hlen
  | succ m ih => simp [smoothIter, detect_smooth, ih]

/-- Elementwise closed form of the exponential moving average fed a constant
input: the distance to the constant decays by a factor `alpha` per frame. -/
theorem smoothIter_getD (alpha : ℚ) (s0 c : List ℚ)
    (hlen : s0.length = c.length) (k : Nat) (hk : k < c.length) :
    ∀ n, (smoothIter alpha s0 c n).getD k 0 - c.getD k 0 =
      alpha ^ n * (s0.getD k 0 - c.getD k 0) := by
  intro n
  induction n with
  | zero => simp [smoothIter]
  | succ m ih =>
    have hm : k < (smoothIter alpha s0 c m).length := by
      rw [smoothIter_length alpha s0 c hlen m]; exact hk
    have hz : k < (List.zipWith (fun p c => alpha * p + (1 - alpha) * c)
        (smoothIter alpha s0 c m) c).length := by
      simp [List.length_zipWith, smoothIter_length alpha s0 c hlen m]
      exact hk
    have hstep : (smoothIter alpha s0 c (m + 1)).getD k 0 =
        alpha * (smoothIter alpha s0 c m).getD k 0 +
          (1 - alpha) * c.getD k 0 := by
      show (detect_smooth alpha (some (smoothIter alpha s0 c m)) c).getD k 0 = _
      rw [detect_smooth]
      rw [List.getD_eq_getElem _ _ hz, List.getElem_zipWith,
        List.getD_eq_getElem _ _ hm, List.getD_eq_getElem _ _ hk]
    rw [hstep]
    have : alpha * (smoothIter alpha s0 c m).getD k 0 + (1 - alpha) * c.getD k 0
        - c.getD k 0 =
        alpha * ((smoothIter alpha s0 c m).getD k 0 - c.getD k 0) := by ring
    rw [this, ih, pow_succ]
    ring

/-- Largest initial elementwise deviation `|s0[k] - c[k]|`. -/
def maxDev (s0 c : List ℚ) : ℚ :=
  (List.zipWith (fun a b => |a - b|) s0 c).foldr max 0

theorem le_foldr_max (l : List ℚ) (x : ℚ) (hx : x ∈ l) :
    x ≤ l.foldr max 0 := by
  induction l with
  | nil => cases hx
  | cons a t ih =>
    rcases List.mem_cons.mp hx with h | h
    · subst h; exact le_max_left _ _
    · exact le_trans (ih h) (le_max_right _ _)

theorem foldr_max_nonneg (l : List ℚ) : 0 ≤ l.foldr max 0 := by
  induction l with
  | nil => simp
  | cons a t ih => exact le_trans ih (le_max_right _ _)

theorem abs_getD_sub_le_maxDev (s0 c : List ℚ) (hlen : s0.length = c.length)
    (k : Nat) (hk : k < c.length) :
    |s0.getD k 0 - c.getD k 0| ≤ maxDev s0 c := by
  have hk0 : k < s0.length := by rw [hlen]; exact hk
  have hz : k < (List.zipWith (fun a b => |a - b|) s0 c).length := by
    simp [List.length_zipWith, hlen]
    exact hk
  have hmem : |s0.getD k 0 - c.getD k 0| ∈
      List.zipWith (fun a b => |a - b|) s0 c := by
    rw [List.getD_eq_getElem _ _ hk0, List.getD_eq_getElem _ _ hk]
    have := @List.getElem_zipWith ℚ ℚ ℚ (fun a b => |a - b|) s0 c k hz
    rw [← this]
    exact List.getElem_mem _
  exact le_foldr_max _ _ hmem

/-- C8 (amended: smoothing factor in `[0,1)` rather than `[0,1]`): the
smoother stores the first frame's raw array as-is, thereafter updates the
state to `alpha * previous + (1 - alpha) * current` elementwise, and for
every `alpha ∈ [0,1)` and every initial state, feeding the same constant
landmark array drives every component of the smoothed output within any
chosen positive tolerance of that constant array. -/
theorem C8_smoothing_convergence (alpha : ℚ) (s0 c : List ℚ)
    (hlen : s0.length = c.length) (h0 : 0 ≤ alpha) (h1 : alpha < 1) :
    (∀ cur, detect_smooth alpha none cur = cur) ∧
    (∀ prev cur, detect_smooth alpha (some prev) cur =
      List.zipWith (fun p x => alpha * p + (1 - alpha) * x) prev cur) ∧
    (∀ ε : ℚ, 0 < ε → ∃ N, ∀ n, N ≤ n → ∀ k, k < c.length →
      |(smoothIter alpha s0 c n).getD k 0 - c.getD k 0| ≤ ε) := by
  refine ⟨fun _ => rfl, fun _ _ => rfl, fun ε hε => ?_⟩
  set M : ℚ := maxDev s0 c with hM
  have hM0 : 0 ≤ M := foldr_max_nonneg _
  have hM1 : 0 < M + 1 := by linarith
  obtain ⟨N, hN⟩ := exists_pow_lt_of_lt_one (div_pos hε hM1) h1
  refine ⟨N, fun n hn k hk => ?_⟩
  rw [smoothIter_getD alpha s0 c hlen k hk n, abs_mul,
    abs_of_nonneg (pow_nonneg h0 n)]
  have hpow : alpha ^ n ≤ alpha ^ N :=
    pow_le_pow_of_le_one h0 (le_of_lt h1) hn
  have hdev : |s0.getD k 0 - c.getD k 0| ≤ M :=
    abs_getD_sub_le_maxDev s0 c hlen k hk
  have habs : 0 ≤ |s0.getD k 0 - c.getD k 0| := abs_nonneg _
  have hdev1 : |s0.getD k 0 - c.getD k 0| ≤ M + 1 := by linarith
  have h2 : alpha ^ n * |s0.getD k 0 - c.getD k 0| ≤ alpha ^ N * (M + 1) :=
    mul_le_mul hpow hdev1 habs (pow_nonneg h0 N)
  have h3 : alpha ^ N * (M + 1) ≤ ε / (M + 1) * (M + 1) := by
    exact mul_le_mul_of_nonneg_right (le_of_lt hN) (le_of_lt hM1)
  have h4 : ε / (M + 1) * (M + 1) = ε := div_mul_cancel₀ ε (ne_of_gt hM1)
  linarith

/-- Concrete instance of C8: `alpha = 1/2`, one landmark component, initial
state `[0]`, constant input `[1]`. -/
theorem C8_smoothing_convergence_witness :
    ∃ N, ∀ n, N ≤ n → ∀ k, k < [(1 : ℚ)].length →
      |(smoothIter (1/2) [0] [1] n).getD k 0 - [(1 : ℚ)].getD k 0| ≤ 1 :=
  (C8_smoothing_convergence (1/2) [0] [1] rfl (by norm_num)
    (by norm_num)).2.2 1 (by norm_num)

/-- With `alpha = 1` (which the spec's interval `[0,1]` allows) the smoother
never moves: from initial state `[0]` under constant input `[1]` every frame
stays at `[0]`. -/
theorem smoothIter_alpha_one (n : Nat) :
    smoothIter 1 [0] [1] n = [0] := by
  induction n with
  | zero => rfl
  | succ m ih => simp [smoothIter, detect_smooth, ih]

/-- Counterexample to C8 as stated: at smoothing factor `alpha = 1 ∈ [0,1]`,
initial state `[0]` and constant input `[1]`, the smoothed output never
comes within tolerance `1/2` of the constant array, at any frame count. -/
theorem C8_counterexample :
    ¬ ∃ N, |(smoothIter 1 [0] [1] N).getD 0 0 - [(1 : ℚ)].getD 0 0| ≤ 1/2 := by
  rintro ⟨N, hN⟩
  rw [smoothIter_alpha_one N] at hN
  norm_num at hN

/-! ## `services/midline.py` — `Line2D`, and `services/calculate.py`

`Line2D` is a frozen dataclass of two 2-vectors.  It is used both at `ℚ`
(exact model of the float arithmetic in `calculate.py`) and at `ℝ` (for the
SVD-based midline fit, which needs a square root). -/

deriving instance DecidableEq for Except

structure Line2D (α : Type) where
  origin : α × α
  direction : α × α
deriving DecidableEq

/-- Python exceptions that the embedded code can raise. -/
inductive PyErr where
  | indexError
  | keyError
deriving DecidableEq

/-- Slice of `services/config.py` used by `calculate.py`:
`cfg.runtime.droopy : str | None`. -/
structure Config where
  droopy : Option String
deriving DecidableEq

/-- Python `str.lower()` (ASCII model; `String.toLower` is defined by
well-founded recursion and does not reduce in the kernel, so lowering is
done over the character list). -/
def pyLower (s : String) : String :=
  ⟨s.data.map Char.toLower⟩

/-- `(cfg.runtime.droopy or "left").lower()` — Python `or` also replaces the
empty (falsy) string. -/
def _resolve_droopy_side (cfg : Config) : String :=
  pyLower (match cfg.droopy with
   | none => "left"
   | some s => if s = "" then "left" else s)

/-- `"right" if droopy == "left" else "left"`. -/
def _resolve_healthy_side (cfg : Config) : String :=
  if _resolve_droopy_side cfg = "left" then "right" else "left"

/-- `_SIDE_TO_LANDMARKS[side]` lookup followed by membership; a key other
than `"left"`/`"right"` raises `KeyError`. -/
def _belongs_to_side (index : Nat) (side : String) : Except PyErr Bool :=
  if side = "left" then .ok (decide (index ∈ LEFT_LANDMARKS))
  else if side = "right" then .ok (decide (index ∈ RIGHT_LANDMARKS))
  else .error .keyError

/-- `landmarks[i]` on a numpy array: out-of-range raises `IndexError`. -/
def npIndex (landmarks : List (List ℚ)) (i : Nat) : Except PyErr (List ℚ) :=
  match landmarks.get? i with
  | some row => .ok row
  | none => .error .indexError

/-- `coords[:2]` of a landmark row (rows of a well-formed `(N,2)`/`(N,3)`
array have length ≥ 2, where this is exact). -/
def xyOf (row : List ℚ) : ℚ × ℚ :=
  (row.getD 0 0, row.getD 1 0)

/-- `_line_projections(point, midline)`: `(midline_component,
perpendicular_component)` of `point - origin` against `direction` and the
90°-rotated `(direction[1], -direction[0])`. -/
def _line_projections (point : ℚ × ℚ) (midline : Line2D ℚ) : ℚ × ℚ :=
  let d := midline.direction
  let perp := (d.2, -d.1)
  let rel := (point.1 - midline.origin.1, point.2 - midline.origin.2)
  (rel.1 * d.1 + rel.2 * d.2, rel.1 * perp.1 + rel.2 * perp.2)

/-- `_perpendicular_line(point, midline)`.  `vnorm` stands for the external
`np.linalg.norm` (for a unit midline direction it returns 1). -/
def _perpendicular_line (vnorm : ℚ × ℚ → ℚ) (point : ℚ × ℚ)
    (midline : Line2D ℚ) : Line2D ℚ :=
  let d := midline.direction
  let perp := (d.2, -d.1)
  let n := vnorm perp
  ⟨point, (perp.1 / n, perp.2 / n)⟩

/-- `_cartesian_delta(midline, mid_delta, perp_delta)`: reconstruct the
vector and flip the sign of `y`. -/
def _cartesian_delta (midline : Line2D ℚ) (mid_delta perp_delta : ℚ) :
    ℚ × ℚ :=
  let d := midline.direction
  let perp := (d.2, -d.1)
  let v := (mid_delta * d.1 + perp_delta * perp.1,
            mid_delta * d.2 + perp_delta * perp.2)
  (v.1, -v.2)

/-- `pipeline.py`'s `_reflect_point_across_line(point, line)`. -/
def _reflect_point_across_line (point : ℚ × ℚ) (line : Line2D ℚ) : ℚ × ℚ :=
  let o := line.origin
  let d := line.direction
  let v := (point.1 - o.1, point.2 - o.2)
  let t := v.1 * d.1 + v.2 * d.2
  let proj := (t * d.1, t * d.2)
  let perp := (v.1 - proj.1, v.2 - proj.2)
  (o.1 + proj.1 - perp.1, o.2 + proj.2 - perp.2)

structure LandmarkDisplacement where
  healthy_index : Nat
  droopy_index : Nat
  healthy_coords : List ℚ
  droopy_coords : List ℚ
  healthy_depth : Option ℚ
  droopy_depth : Option ℚ
  perpendicular_line : Line2D ℚ
  healthy_perp_offset : ℚ
  droopy_perp_offset : ℚ
  perpendicular_delta : ℚ
  healthy_mid_offset : ℚ
  droopy_mid_offset : ℚ
  midline_delta : ℚ
  x_delta : ℚ
  y_delta : ℚ
  weighted_delta : ℚ
deriving DecidableEq

structure MidlineAnchorMetric where
  index : Nat
  coords : List ℚ
  depth : Option ℚ
  perpendicular_line : Line2D ℚ
  perpendicular_offset : ℚ
deriving DecidableEq

structure AsymmetryMetrics where
  droopy_side : String
  healthy_side : String
  displacements : List LandmarkDisplacement
  midline_anchors : List MidlineAnchorMetric
deriving DecidableEq

/-- `_flipped_index(index)` is `None` or a partner; `_select_counterpart`
resolves the droopy index for a healthy landmark (may consult
`_belongs_to_side`, hence `Except`). -/
def _select_counterpart (healthy_index : Nat) (droopy_side : String) :
    Except PyErr (Option Nat) := do
  match _flipped_index healthy_index with
  | none => return none
  | some counterpart => do
    let b1 ← _belongs_to_side counterpart droopy_side
    if b1 then return (some counterpart)
    else do
      let b2 ← _belongs_to_side healthy_index droopy_side
      if b2 then return (some healthy_index) else return none

/-- Classification loop of `_classify_indices` (the three result buckets are
Python sets; list order is irrelevant, `sortedSet` is applied later). -/
def classifyAux (droopy_side healthy_side : String) :
    List Nat → Except PyErr (List Nat × List Nat × List Nat)
  | [] => .ok ([], [], [])
  | i :: rest => do
    let (h, d, m) ← classifyAux droopy_side healthy_side rest
    if i ∈ MIDLINE_LANDMARKS then
      return (h, d, i :: m)
    else do
      let bd ← _belongs_to_side i droopy_side
      if bd then return (h, i :: d, m)
      else do
        let bh ← _belongs_to_side i healthy_side
        if bh then return (i :: h, d, m)
        else return (h, d, i :: m)

/-- `_classify_indices(indices, droopy_side)`. -/
def _classify_indices (indices : List Nat) (droopy_side : String) :
    Except PyErr (List Nat × List Nat × List Nat) :=
  classifyAux droopy_side (if droopy_side = "left" then "right" else "left")
    indices

/-- `for idx in droopy_indices:` pull each healthy mirror partner into the
healthy bucket (`healthy_indices.add`; duplicates are removed by
`sortedSet`). -/
def augmentHealthy (healthy_side : String) (healthy droopy : List Nat) :
    Except PyErr (List Nat) :=
  droopy.foldlM
    (fun acc idx =>
      match _flipped_index idx with
      | none => .ok acc
      | some p => do
        let b ← _belongs_to_side p healthy_side
        if b then return (p :: acc) else return acc)
    healthy

/-- Python `sorted(some_set)`: ascending order, duplicates removed. -/
def sortedSet (l : List Nat) : List Nat :=
  l.dedup.insertionSort (· ≤ ·)

/-- The `LandmarkDisplacement(...)` constructed in the main loop of
`compute_asymmetry_metrics` (field for field). -/
def mkDisplacement (vnorm : ℚ × ℚ → ℚ) (midline : Line2D ℚ)
    (healthy_idx droopy_idx : Nat) (healthy_coords droopy_coords : List ℚ) :
    LandmarkDisplacement :=
  let healthy_xy := xyOf healthy_coords
  let droopy_xy := xyOf droopy_coords
  let hp := _line_projections healthy_xy midline
  let dp := _line_projections droopy_xy midline
  let perp_delta := hp.2 - dp.2
  let mid_delta := hp.1 - dp.1
  let dxy := _cartesian_delta midline mid_delta perp_delta
  { healthy_index := healthy_idx
    droopy_index := droopy_idx
    healthy_coords := healthy_coords
    droopy_coords := droopy_coords
    healthy_depth :=
      if 3 ≤ healthy_coords.length then some (healthy_coords.getD 2 0) else none
    droopy_depth :=
      if 3 ≤ droopy_coords.length then some (droopy_coords.getD 2 0) else none
    perpendicular_line := _perpendicular_line vnorm healthy_xy midline
    healthy_perp_offset := hp.2
    droopy_perp_offset := dp.2
    perpendicular_delta := perp_delta
    healthy_mid_offset := hp.1
    droopy_mid_offset := dp.1
    midline_delta := mid_delta
    x_delta := dxy.1
    y_delta := dxy.2
    weighted_delta := perp_delta * mid_delta }

/-- Main pairing loop of `compute_asymmetry_metrics` over
`sorted(healthy_indices)`. -/
def pairLoop (vnorm : ℚ × ℚ → ℚ) (droopy_side : String) (midline : Line2D ℚ)
    (landmarks : List (List ℚ)) :
    List Nat → Except PyErr (List LandmarkDisplacement)
  | [] => .ok []
  | healthy_idx :: rest => do
    let cp ← _select_counterpart healthy_idx droopy_side
    match cp with
    | none => pairLoop vnorm droopy_side midline landmarks rest
    | some droopy_idx =>
      if landmarks.length ≤ droopy_idx then
        pairLoop vnorm droopy_side midline landmarks rest
      else do
        let hrow ← npIndex landmarks healthy_idx
        let drow ← npIndex landmarks droopy_idx
        let ds ← pairLoop vnorm droopy_side midline landmarks rest
        return mkDisplacement vnorm midline healthy_idx droopy_idx hrow drow
          :: ds

/-- Midline-anchor loop of `compute_asymmetry_metrics` over
`sorted(midline_indices)`. -/
def anchorLoop (vnorm : ℚ × ℚ → ℚ) (midline : Line2D ℚ)
    (landmarks : List (List ℚ)) :
    List Nat → Except PyErr (List MidlineAnchorMetric)
  | [] => .ok []
  | anchor_idx :: rest =>
    if landmarks.length ≤ anchor_idx then
      anchorLoop vnorm midline landmarks rest
    else do
      let row ← npIndex landmarks anchor_idx
      let xy := xyOf row
      let ms ← anchorLoop vnorm midline landmarks rest
      return { index := anchor_idx
               coords := row
               depth := if 3 ≤ row.length then some (row.getD 2 0) else none
               perpendicular_line := _perpendicular_line vnorm xy midline
               perpendicular_offset := (_line_projections xy midline).2 }
        :: ms

/-- `compute_asymmetry_metrics(cfg, midline, tracked_indices, landmarks)`.

`vnorm` abstracts numpy's `np.linalg.norm`; `tracked_indices` may contain
negative Python ints; `landmarks = none` is a `None` array. -/
def compute_asymmetry_metrics (vnorm : ℚ × ℚ → ℚ) (cfg : Config)
    (midline : Option (Line2D ℚ)) (tracked_indices : List Int)
    (landmarks : Option (List (List ℚ))) : Except PyErr AsymmetryMetrics :=
  match midline, landmarks with
  | none, _ =>
    .ok ⟨_resolve_droopy_side cfg, _resolve_healthy_side cfg, [], []⟩
  | some _, none =>
    .ok ⟨_resolve_droopy_side cfg, _resolve_healthy_side cfg, [], []⟩
  | some ml, some lms =>
    if lms.length = 0 then
      .ok ⟨_resolve_droopy_side cfg, _resolve_healthy_side cfg, [], []⟩
    else do
      let droopy_side := _resolve_droopy_side cfg
      let healthy_side := _resolve_healthy_side cfg
      let tracked_set :=
        ((tracked_indices.filter
            (fun i => decide (0 ≤ i ∧ i < (lms.length : Int)))).map
          Int.toNat).dedup
      let (healthy0, droopy0, midline0) ←
        _classify_indices tracked_set droopy_side
      let healthy1 ← augmentHealthy healthy_side healthy0 droopy0
      let disps ← pairLoop vnorm droopy_side ml lms (sortedSet healthy1)
      let anchors ← anchorLoop vnorm ml lms (sortedSet midline0)
      return ⟨droopy_side, healthy_side, disps, anchors⟩

/-! ### Claims about `compute_asymmetry_metrics` -/

/-- C9: with a `None` midline, or a `None`/empty landmark array, the result
is an `AsymmetryMetrics` with empty displacement and anchor lists whose side
labels are still populated from the configuration; the two sides are
opposite of each other whenever the configured droopy side resolves to
`"left"` or `"right"`. -/
theorem C9_empty_inputs_still_labelled (vnorm : ℚ × ℚ → ℚ) (cfg : Config)
    (ml : Line2D ℚ) (tracked : List Int) (lms : Option (List (List ℚ))) :
    compute_asymmetry_metrics vnorm cfg none tracked lms =
      .ok ⟨_resolve_droopy_side cfg, _resolve_healthy_side cfg, [], []⟩ ∧
    compute_asymmetry_metrics vnorm cfg (some ml) tracked none =
      .ok ⟨_resolve_droopy_side cfg, _resolve_healthy_side cfg, [], []⟩ ∧
    compute_asymmetry_metrics vnorm cfg (some ml) tracked (some []) =
      .ok ⟨_resolve_droopy_side cfg, _resolve_healthy_side cfg, [], []⟩ ∧
    (_resolve_droopy_side cfg = "left" → _resolve_healthy_side cfg = "right") ∧
    (_resolve_droopy_side cfg = "right" → _resolve_healthy_side cfg = "left") := by
  refine ⟨rfl, rfl, rfl, ?_, ?_⟩
  · intro h; simp [_resolve_healthy_side, h]
  · intro h; simp [_resolve_healthy_side, h]

/-- Concrete instance of C9: droopy configured as `"Right"`, a `None`
midline; sides resolve to opposite labels and the lists are empty. -/
theorem C9_empty_inputs_witness :
    compute_asymmetry_metrics (fun _ => 1) ⟨some "Right"⟩ none [1, -2]
      (some [[0, 0]]) = .ok ⟨"right", "left", [], []⟩ ∧
    _resolve_healthy_side ⟨some "Right"⟩ = "left" := by
  constructor
  · exact ((C9_empty_inputs_still_labelled (fun _ => 1) ⟨some "Right"⟩
      ⟨(0, 0), (0, 1)⟩ [1, -2] (some [[0, 0]])).1).trans (by decide)
  · exact (C9_empty_inputs_still_labelled (fun _ => 1) ⟨some "Right"⟩
      ⟨(0, 0), (0, 1)⟩ [1, -2] (some [[0, 0]])).2.2.2.2 (by decide)

/-- C2 (evidence of the code bug): a 100-row landmark array, droopy side
`"left"`, tracked index 7 (in range).  The healthy mirror partner 249 is
pulled into the healthy bucket without a range check, and the main loop
then evaluates `landmarks[249]`, raising `IndexError` instead of silently
skipping the pair. -/
theorem C2_out_of_range_partner_index_error :
    compute_asymmetry_metrics (fun _ => 1) ⟨none⟩ (some ⟨(0, 0), (0, 1)⟩)
      [7] (some (List.replicate 100 [0, 0])) = .error .indexError := by
  rfl

/-- Inverting `Except` bind. -/
theorem except_bind_ok {ε α β : Type} {x : Except ε α} {f : α → Except ε β}
    {b : β} (h : x >>= f = .ok b) : ∃ a, x = .ok a ∧ f a = .ok b := by
  cases x with
  | error e => exact absurd h (by simp [Bind.bind, Except.bind])
  | ok a => exact ⟨a, rfl, h⟩

/-- Inverting `npIndex`. -/
theorem npIndex_ok {lms : List (List ℚ)} {i : Nat} {row : List ℚ}
    (h : npIndex lms i = .ok row) : lms.get? i = some row := by
  unfold npIndex at h
  cases hg : lms.get? i with
  | none => rw [hg] at h; exact absurd h (by simp)
  | some r => rw [hg] at h; injection h with h'; rw [h']

/-- Every displacement produced by the pairing loop is `mkDisplacement`
applied to two rows actually read from the landmark array. -/
theorem pairLoop_mem (vnorm : ℚ × ℚ → ℚ) (dside : String) (ml : Line2D ℚ)
    (lms : List (List ℚ)) :
    ∀ (l : List Nat) (ds : List LandmarkDisplacement),
      pairLoop vnorm dside ml lms l = .ok ds →
      ∀ d ∈ ds, ∃ hidx didx hrow drow,
        lms.get? hidx = some hrow ∧ lms.get? didx = some drow ∧
        d = mkDisplacement vnorm ml hidx didx hrow drow := by
  intro l
  induction l with
  | nil =>
    intro ds h d hd
    rw [pairLoop] at h
    cases h
    cases hd
  | cons hidx rest ih =>
    intro ds h d hd
    rw [pairLoop] at h
    obtain ⟨cp, hcp, h2⟩ := except_bind_ok h
    cases cp with
    | none => exact ih ds h2 d hd
    | some didx =>
      dsimp only at h2
      by_cases hlen : lms.length ≤ didx
      · rw [if_pos hlen] at h2
        exact ih ds h2 d hd
      · rw [if_neg hlen] at h2
        obtain ⟨hrow, hh, h3⟩ := except_bind_ok h2
        obtain ⟨drow, hdr, h4⟩ := except_bind_ok h3
        obtain ⟨ds', hds', h5⟩ := except_bind_ok h4
        cases h5
        rcases List.mem_cons.mp hd with rfl | hmem
        · exact ⟨hidx, didx, hrow, drow, npIndex_ok hh, npIndex_ok hdr, rfl⟩
        · exact ih ds' hds' d hmem

/-- Projections of a point reflected across a unit-direction line: the
midline component is preserved, the perpendicular component is negated. -/
theorem projections_reflect (p : ℚ × ℚ) (ml : Line2D ℚ)
    (hunit : ml.direction.1 ^ 2 + ml.direction.2 ^ 2 = 1) :
    _line_projections (_reflect_point_across_line p ml) ml =
      ((_line_projections p ml).1, -(_line_projections p ml).2) := by
  obtain ⟨⟨ox, oy⟩, ⟨dx, dy⟩⟩ := ml
  obtain ⟨px, py⟩ := p
  dsimp only [_line_projections, _reflect_point_across_line] at *
  rw [Prod.mk.injEq]
  constructor
  · linear_combination (2 * ((px - ox) * dx + (py - oy) * dy)) * hunit
  · ring

/-- Deltas of a displacement whose droopy landmark is the reflection of the
healthy one across a unit-direction midline. -/
theorem mkDisplacement_reflect (vnorm : ℚ × ℚ → ℚ) (ml : Line2D ℚ)
    (hidx didx : Nat) (hrow drow : List ℚ)
    (hunit : ml.direction.1 ^ 2 + ml.direction.2 ^ 2 = 1)
    (hrefl : xyOf drow = _reflect_point_across_line (xyOf hrow) ml) :
    (mkDisplacement vnorm ml hidx didx hrow drow).midline_delta = 0 ∧
    (mkDisplacement vnorm ml hidx didx hrow drow).perpendicular_delta =
      2 * (mkDisplacement vnorm ml hidx didx hrow drow).healthy_perp_offset := by
  have hdp : _line_projections (xyOf drow) ml =
      ((_line_projections (xyOf hrow) ml).1,
        -(_line_projections (xyOf hrow) ml).2) := by
    rw [hrefl]
    exact projections_reflect (xyOf hrow) ml hunit
  simp only [mkDisplacement, hdp]
  constructor <;> ring

/-- C1 amended: for every displacement produced by
`compute_asymmetry_metrics` whose healthy/droopy coordinates are exact
reflections of each other across the (unit-direction) midline,
`midline_delta` is 0 but `perpendicular_delta` equals twice the healthy
landmark's perpendicular offset — it vanishes only for pairs lying on the
midline itself. -/
theorem C1_reflection_deltas (vnorm : ℚ × ℚ → ℚ) (cfg : Config)
    (ml : Line2D ℚ) (tracked : List Int) (lms : Option (List (List ℚ)))
    (m : AsymmetryMetrics)
    (hok : compute_asymmetry_metrics vnorm cfg (some ml) tracked lms = .ok m)
    (hunit : ml.direction.1 ^ 2 + ml.direction.2 ^ 2 = 1) :
    ∀ d ∈ m.displacements,
      xyOf d.droopy_coords =
        _reflect_point_across_line (xyOf d.healthy_coords) ml →
      d.midline_delta = 0 ∧
      d.perpendicular_delta = 2 * d.healthy_perp_offset := by
  intro d hd hrefl
  cases lms with
  | none =>
    rw [compute_asymmetry_metrics] at hok
    cases hok
    cases hd
  | some lms' =>
    rw [compute_asymmetry_metrics] at hok
    by_cases h0 : lms'.length = 0
    · rw [if_pos h0] at hok
      cases hok
      cases hd
    · rw [if_neg h0] at hok
      obtain ⟨⟨h1, d1, m1⟩, hcl, hok2⟩ := except_bind_ok hok
      obtain ⟨h2, haug, hok3⟩ := except_bind_ok hok2
      obtain ⟨disps, hpl, hok4⟩ := except_bind_ok hok3
      obtain ⟨anchors, hal, hok5⟩ := except_bind_ok hok4
      cases hok5
      obtain ⟨hidx, didx, hrow, drow, hh, hdrw, hdmk⟩ :=
        pairLoop_mem vnorm _ ml lms' _ disps hpl d hd
      subst hdmk
      exact mkDisplacement_reflect vnorm ml hidx didx hrow drow hunit hrefl

/-- Midline through `x = 1/2` pointing straight up, used by the concrete
C1 instances. -/
def exampleMidline : Line2D ℚ := ⟨(1/2, 0), (0, 1)⟩

/-- 250 landmark rows: healthy landmark 249 at `(3/4, 1/2)`, its droopy
partner 7 at the mirror position `(1/4, 1/2)`, all others at the origin. -/
def exampleLandmarks : List (List ℚ) :=
  (List.range 250).map (fun i =>
    if i = 249 then [3/4, 1/2] else if i = 7 then [1/4, 1/2] else [0, 0])

/-- The droopy example landmark `(1/4, 1/2)` is the exact reflection of the
healthy example landmark `(3/4, 1/2)` across `exampleMidline`. -/
theorem example_reflect :
    xyOf [1/4, 1/2] =
      _reflect_point_across_line (xyOf [3/4, 1/2]) exampleMidline := by
  simp only [xyOf, _reflect_point_across_line, exampleMidline, List.getD]
  norm_num

/-- Running `compute_asymmetry_metrics` on the example produces exactly the
249/7 pair. -/
theorem example_compute :
    compute_asymmetry_metrics (fun _ => 1) ⟨none⟩ (some exampleMidline)
      [249] (some exampleLandmarks) =
      .ok ⟨"left", "right",
        [mkDisplacement (fun _ => 1) exampleMidline 249 7 [3/4, 1/2]
          [1/4, 1/2]], []⟩ := by
  rfl

/-- Counterexample to C1 as stated: landmarks 249/7 are exact reflections of
each other across the midline, yet the produced pair has
`perpendicular_delta = 1/2`, far outside floating tolerance of 0
(`midline_delta` is 0 as claimed). -/
theorem C1_counterexample :
    xyOf [1/4, 1/2] =
      _reflect_point_across_line (xyOf [3/4, 1/2]) exampleMidline ∧
    compute_asymmetry_metrics (fun _ => 1) ⟨none⟩ (some exampleMidline)
        [249] (some exampleLandmarks) =
      .ok ⟨"left", "right",
        [mkDisplacement (fun _ => 1) exampleMidline 249 7 [3/4, 1/2]
          [1/4, 1/2]], []⟩ ∧
    (mkDisplacement (fun _ => 1) exampleMidline 249 7 [3/4, 1/2]
        [1/4, 1/2]).perpendicular_delta = 1/2 ∧
    (mkDisplacement (fun _ => 1) exampleMidline 249 7 [3/4, 1/2]
        [1/4, 1/2]).midline_delta = 0 ∧
    ¬ ((1 : ℚ) / 2 = 0) := by
  refine ⟨example_reflect, example_compute, ?_, ?_, by norm_num⟩
  · simp only [mkDisplacement, _line_projections, xyOf, exampleMidline,
      List.getD]
    norm_num
  · simp only [mkDisplacement, _line_projections, xyOf, exampleMidline,
      List.getD]
    norm_num

/-- Concrete instance of the amended C1, through the full
`compute_asymmetry_metrics` call on `exampleLandmarks`. -/
theorem C1_reflection_deltas_witness :
    xyOf [1/4, 1/2] =
      _reflect_point_across_line (xyOf [3/4, 1/2]) exampleMidline ∧
    ((mkDisplacement (fun _ => 1) exampleMidline 249 7 [3/4, 1/2]
        [1/4, 1/2]).midline_delta = 0 ∧
      (mkDisplacement (fun _ => 1) exampleMidline 249 7 [3/4, 1/2]
        [1/4, 1/2]).perpendicular_delta =
        2 * (mkDisplacement (fun _ => 1) exampleMidline 249 7 [3/4, 1/2]
          [1/4, 1/2]).healthy_perp_offset) := by
  refine ⟨example_reflect, ?_⟩
  exact C1_reflection_deltas (fun _ => 1) ⟨none⟩ exampleMidline [249]
    (some exampleLandmarks)
    ⟨"left", "right",
      [mkDisplacement (fun _ => 1) exampleMidline 249 7 [3/4, 1/2]
        [1/4, 1/2]], []⟩
    example_compute
    (by simp only [exampleMidline]; norm_num)
    (mkDisplacement (fun _ => 1) exampleMidline 249 7 [3/4, 1/2] [1/4, 1/2])
    (by simp) example_reflect

/-! ## `services/methods/warp.py` — `warp_face` input validation

Python exceptions raised by `warp_face`. -/

inductive WarpErr where
  | valueError (msg : String)
  | notImplementedError (msg : String)
deriving DecidableEq

/-- `np.asarray(points, dtype=np.float32)` followed by `.shape` for a
sequence of coordinate rows: a rectangular non-empty list has shape
`[n, k]` (ndim 2), the empty list has shape `[0]` (ndim 1), and a ragged
list cannot be converted to a float array (`ValueError`). -/
def npShape (rows : List (List ℚ)) : Except WarpErr (List Nat) :=
  match rows with
  | [] => .ok [0]
  | r :: rest =>
    if rest.all (fun x => decide (x.length = r.length)) then
      .ok [rows.length, r.length]
    else .error (.valueError "setting an array element with a sequence")

/-- `warp_face(frame, src_points, dst_points, mesh, method, blend_params)`,
lines 42–53: the validation prefix is embedded exactly; the remainder of
the function (pixel conversion, `build_mesh`, `piecewise_affine_warp` and
blending — all driven by scipy/cv2) is abstracted as the continuation
`rest`.  `F` is the frame type, `M` the mesh type, `I` the output image
type. -/
def warp_face {F M I : Type}
    (rest : F → List (List ℚ) → List (List ℚ) → Option M → Except WarpErr I)
    (frame : Option F) (src_points dst_points : List (List ℚ))
    (mesh : Option M) (method : String) : Except WarpErr I :=
  match frame with
  | none => .error (.valueError "frame is required")
  | some f =>
    match npShape src_points, npShape dst_points with
    | .error e, _ => .error e
    | .ok _, .error e => .error e
    | .ok sshape, .ok dshape =>
      if sshape ≠ dshape ∨ sshape.length ≠ 2 ∨ sshape.getD 1 0 ≠ 2 then
        .error (.valueError "src_points and dst_points must be Nx2 arrays of matches")
      else if src_points.length < 3 then
        .error (.valueError "At least three points required for warping")
      else if pyLower method ≠ "delaunay" then
        .error (.notImplementedError "Only 'delaunay' warping is implemented so far")
      else rest f src_points dst_points mesh

theorem npShape_rect {rows : List (List ℚ)} {k : Nat}
    (h : ∀ r ∈ rows, r.length = k) (hne : rows ≠ []) :
    npShape rows = .ok [rows.length, k] := by
  cases rows with
  | nil => exact absurd rfl hne
  | cons r t =>
    have hr : r.length = k := h r (List.mem_cons_self r t)
    have ht : t.all (fun x => decide (x.length = r.length)) = true := by
      rw [List.all_eq_true]
      intro x hx
      rw [decide_eq_true_iff, hr]
      exact h x (List.mem_cons_of_mem r hx)
    rw [npShape, if_pos ht, hr]

/-- Behaviour of `warp_face` once both point sets convert to arrays with
known shapes. -/
theorem warp_face_ok_ok {F M I : Type}
    (rest : F → List (List ℚ) → List (List ℚ) → Option M → Except WarpErr I)
    (f : F) (src dst : List (List ℚ)) (mesh : Option M) (method : String)
    {s d : List Nat}
    (hs : npShape src = .ok s) (hd : npShape dst = .ok d) :
    warp_face rest (some f) src dst mesh method =
      if s ≠ d ∨ s.length ≠ 2 ∨ s.getD 1 0 ≠ 2 then
        .error (.valueError "src_points and dst_points must be Nx2 arrays of matches")
      else if src.length < 3 then
        .error (.valueError "At least three points required for warping")
      else if pyLower method ≠ "delaunay" then
        .error (.notImplementedError "Only 'delaunay' warping is implemented so far")
      else rest f src dst mesh := by
  rw [warp_face, hs, hd]

/-- C3: for rectangular point arrays, `warp_face` raises `ValueError`
whenever the source and destination shapes differ, the rows are not pairs,
or there are fewer than 3 pairs; with valid point arrays and any method
other than `"delaunay"` (case-insensitive) it raises `NotImplementedError`
instead of falling back to another algorithm. -/
theorem C3_warp_face_validation {F M I : Type}
    (rest : F → List (List ℚ) → List (List ℚ) → Option M → Except WarpErr I)
    (f : F) (src dst : List (List ℚ)) (mesh : Option M) (method : String)
    (k j : Nat) (hsrc : ∀ r ∈ src, r.length = k)
    (hdst : ∀ r ∈ dst, r.length = j) :
    ((src.length ≠ dst.length ∨ k ≠ j ∨ k ≠ 2 ∨ src.length < 3) →
      ∃ msg, warp_face rest (some f) src dst mesh method =
        .error (.valueError msg)) ∧
    (src.length = dst.length → k = j → k = 2 → 3 ≤ src.length →
      pyLower method ≠ "delaunay" →
      warp_face rest (some f) src dst mesh method =
        .error (.notImplementedError
          "Only 'delaunay' warping is implemented so far")) := by
  constructor
  · intro hbad
    cases src with
    | nil =>
      cases dst with
      | nil =>
        rw [warp_face_ok_ok rest f [] [] mesh method rfl rfl,
          if_pos (Or.inr (Or.inl (by decide)))]
        exact ⟨_, rfl⟩
      | cons r2 t2 =>
        rw [warp_face_ok_ok rest f [] (r2 :: t2) mesh method rfl
          (npShape_rect hdst (by simp)), if_pos (Or.inr (Or.inl (by decide)))]
        exact ⟨_, rfl⟩
    | cons r t =>
      cases dst with
      | nil =>
        rw [warp_face_ok_ok rest f (r :: t) [] mesh method
          (npShape_rect hsrc (by simp)) rfl,
          if_pos (Or.inl (by simp))]
        exact ⟨_, rfl⟩
      | cons r2 t2 =>
        rw [warp_face_ok_ok rest f (r :: t) (r2 :: t2) mesh method
          (npShape_rect hsrc (by simp)) (npShape_rect hdst (by simp))]
        by_cases hcond : ([(r :: t).length, k] ≠ [(r2 :: t2).length, j] ∨
            ([(r :: t).length, k] : List Nat).length ≠ 2 ∨
            ([(r :: t).length, k] : List Nat).getD 1 0 ≠ 2)
        · rw [if_pos hcond]
          exact ⟨_, rfl⟩
        · push_neg at hcond
          obtain ⟨heq, hlen2, hget⟩ := hcond
          have hn : (r :: t).length = (r2 :: t2).length := by
            injection heq
          have hkj : k = j := by
            injection heq with h1 h2
            injection h2 with h3 h4
          have hk2 : k = 2 := by simpa using hget
          have hlt : (r :: t).length < 3 := by
            rcases hbad with hx | hx | hx | hx
            · exact absurd hn hx
            · exact absurd hkj hx
            · exact absurd hk2 hx
            · exact hx
          rw [if_neg (by push_neg; exact ⟨heq, hlen2, hget⟩), if_pos hlt]
          exact ⟨_, rfl⟩
  · intro hlen hkj hk2 h3 hmethod
    have hsne : src ≠ [] := by
      intro hse
      rw [hse] at h3
      simp at h3
    have hdne : dst ≠ [] := by
      intro hde
      rw [hde, List.length_nil] at hlen
      rw [hlen] at h3
      simp at h3
    rw [warp_face_ok_ok rest f src dst mesh method
      (npShape_rect hsrc hsne) (npShape_rect hdst hdne),
      if_neg (by push_neg; exact ⟨by rw [hlen, hkj], rfl, by simp [hk2]⟩),
      if_neg (by omega), if_pos hmethod]

/-- Concrete instances of C3: two matching pairs only is rejected with
`ValueError`; three valid pairs with method `"TPS"` is rejected with
`NotImplementedError`. -/
theorem C3_warp_face_validation_witness :
    (∃ msg,
      warp_face (fun (_ : Unit) _ _ (_ : Option Unit) => .ok ())
        (some ()) [[0, 0], [1, 0]] [[0, 0], [1, 1]] none "delaunay" =
      .error (.valueError msg)) ∧
    warp_face (fun (_ : Unit) _ _ (_ : Option Unit) => .ok ())
        (some ()) [[0, 0], [1, 0], [0, 1]] [[0, 0], [1, 1], [0, 1]] none
        "TPS" =
      .error (.notImplementedError
        "Only 'delaunay' warping is implemented so far") := by
  constructor
  · exact (C3_warp_face_validation _ () [[0, 0], [1, 0]] [[0, 0], [1, 1]]
      none "delaunay" 2 2 (by decide) (by decide)).1
      (Or.inr (Or.inr (Or.inr (by decide))))
  · exact (C3_warp_face_validation _ () [[0, 0], [1, 0], [0, 1]]
      [[0, 0], [1, 1], [0, 1]] none "TPS" 2 2 (by decide) (by decide)).2
      rfl rfl rfl (by decide) (by decide)

/-! ## `services/methods/blend.py` — `blend_with_mask`

Images are modelled as flat pixel sequences (the numpy operations involved
are all elementwise); the original frame is `uint8` (`List Int` with values
in `[0,255]`), warped is float (`List ℚ`), the mask float in `[0,1]`.
`cv2.GaussianBlur` is external and abstracted as the `blur` parameter; the
Gaussian kernel is normalized, so blurring preserves constant images —
that guarantee becomes a hypothesis of the claim's theorem.  `h`/`w` are
`original.shape[:2]`. -/

/-- The `feather`-driven branch of `_compute_kernel`:
`k = max(3, int(feather * size))`, forced odd. -/
def featherKernel (feather : ℚ) (size : Nat) : Int :=
  if feather ≤ 0 then 1
  else
    let k : Int := max 3 (Int.floor (feather * size))
    if k % 2 = 0 then k + 1 else k

/-- `_compute_kernel(feather, kernel, size)`. -/
def _compute_kernel (feather : ℚ) (kernel : Option Int) (size : Nat) : Int :=
  match kernel with
  | some k =>
    if 1 < k then (if k % 2 = 1 then k else k + 1)
    else featherKernel feather size
  | none => featherKernel feather size

/-- `params.get("feather", 0.02)` / `params.get("feather_kernel")`. -/
structure BlendParams where
  feather : Option ℚ
  feather_kernel : Option Int

/-- `np.clip(v, lo, hi)` for one scalar. -/
def npClip (lo hi v : ℚ) : ℚ := max lo (min hi v)

/-- Casting a clipped nonnegative float to `uint8` truncates. -/
def toUint8 (b : ℚ) : Int := Int.floor (npClip 0 255 b)

/-- `blend_with_mask(original, warped, mask, params)`. -/
def blend_with_mask (blur : Int → List ℚ → List ℚ)
    (original : List Int) (warped : List ℚ) (mask : List ℚ)
    (params : Option BlendParams) (h w : Nat) : List Int :=
  let p := params.getD ⟨none, none⟩
  let feather := p.feather.getD (1/50)
  let kernel := p.feather_kernel
  let kernel_size := _compute_kernel feather kernel (max h w)
  let mask_b := if 1 < kernel_size then blur kernel_size mask else mask
  let mask_f := mask_b.map (npClip 0 1)
  let blended := List.zipWith (fun wv om => wv * om.2 + (om.1 : ℚ) * (1 - om.2))
      warped ((original.map Int.cast).zip mask_f)
  blended.map toUint8

theorem blend_zero_mask_core :
    ∀ (original : List Int) (warped : List ℚ),
      original.length = warped.length →
      (∀ x ∈ original, 0 ≤ x ∧ x ≤ 255) →
      (List.zipWith (fun wv om => wv * om.2 + (om.1 : ℚ) * (1 - om.2)) warped
          ((original.map Int.cast).zip
            (List.replicate original.length (0 : ℚ)))).map toUint8 =
        original := by
  intro original
  induction original with
  | nil => intro warped _ _; simp
  | cons o t ih =>
    intro warped hlen hbound
    cases warped with
    | nil => simp at hlen
    | cons wv wt =>
      simp only [List.map_cons, List.length_cons, List.replicate_succ,
        List.zip_cons_cons, List.zipWith_cons_cons]
      have h0 : (0 : ℚ) ≤ (o : ℚ) := by
        exact_mod_cast (hbound o (List.mem_cons_self o t)).1
      have h255 : (o : ℚ) ≤ 255 := by
        exact_mod_cast (hbound o (List.mem_cons_self o t)).2
      have hval : toUint8 (wv * 0 + (o : ℚ) * (1 - 0)) = o := by
        rw [show wv * 0 + (o : ℚ) * (1 - 0) = (o : ℚ) by ring]
        rw [toUint8, npClip, min_eq_right h255, max_eq_right h0,
          Int.floor_intCast]
      rw [hval,
        ih wt (by simpa using hlen) (fun x hx => hbound x (List.mem_cons_of_mem o hx))]

theorem blend_one_mask_core :
    ∀ (original : List Int) (warped : List ℚ),
      original.length = warped.length →
      (List.zipWith (fun wv om => wv * om.2 + (om.1 : ℚ) * (1 - om.2)) warped
          ((original.map Int.cast).zip
            (List.replicate original.length (1 : ℚ)))).map toUint8 =
        warped.map toUint8 := by
  intro original
  induction original with
  | nil =>
    intro warped hlen
    rw [List.length_nil] at hlen
    cases warped with
    | nil => simp
    | cons wv wt => simp at hlen
  | cons o t ih =>
    intro warped hlen
    cases warped with
    | nil => simp at hlen
    | cons wv wt =>
      simp only [List.map_cons, List.length_cons, List.replicate_succ,
        List.zip_cons_cons, List.zipWith_cons_cons]
      rw [show wv * 1 + (o : ℚ) * (1 - 1) = wv by ring,
        ih wt (by simpa using hlen)]

/-- C5: against a normalized blur (`blur` preserves constant masks — the
cv2 Gaussian guarantee), blending a `uint8` original with an all-zero mask
returns exactly the original image, and blending with an all-one mask
returns the warped image clamped to `[0,255]` and cast to the original's
`uint8` dtype, for every choice of blend parameters. -/
theorem C5_blend_boundary (blur : Int → List ℚ → List ℚ)
    (original : List Int) (warped : List ℚ) (params : Option BlendParams)
    (h w : Nat) (n : Nat)
    (hn : original.length = n) (hwn : warped.length = n)
    (hbound : ∀ x ∈ original, 0 ≤ x ∧ x ≤ 255)
    (hblur0 : ∀ k, blur k (List.replicate n 0) = List.replicate n 0)
    (hblur1 : ∀ k, blur k (List.replicate n 1) = List.replicate n 1) :
    blend_with_mask blur original warped (List.replicate n 0) params h w =
      original ∧
    blend_with_mask blur original warped (List.replicate n 1) params h w =
      warped.map toUint8 := by
  constructor
  · rw [blend_with_mask]
    have hmask : (if 1 < _compute_kernel ((params.getD ⟨none, none⟩).feather.getD (1/50))
          (params.getD ⟨none, none⟩).feather_kernel (max h w) then
            blur (_compute_kernel ((params.getD ⟨none, none⟩).feather.getD (1/50))
              (params.getD ⟨none, none⟩).feather_kernel (max h w))
              (List.replicate n 0)
          else List.replicate n 0) = List.replicate n 0 := by
      split
      · exact hblur0 _
      · rfl
    rw [hmask, List.map_replicate,
      show npClip 0 1 (0 : ℚ) = 0 by rw [npClip]; norm_num, ← hn]
    exact blend_zero_mask_core original warped (hn.trans hwn.symm) hbound
  · rw [blend_with_mask]
    have hmask : (if 1 < _compute_kernel ((params.getD ⟨none, none⟩).feather.getD (1/50))
          (params.getD ⟨none, none⟩).feather_kernel (max h w) then
            blur (_compute_kernel ((params.getD ⟨none, none⟩).feather.getD (1/50))
              (params.getD ⟨none, none⟩).feather_kernel (max h w))
              (List.replicate n 1)
          else List.replicate n 1) = List.replicate n 1 := by
      split
      · exact hblur1 _
      · rfl
    rw [hmask, List.map_replicate,
      show npClip 0 1 (1 : ℚ) = 1 by rw [npClip]; norm_num, ← hn]
    exact blend_one_mask_core original warped (hn.trans hwn.symm)

/-- Concrete instance of C5: a 2-pixel frame, identity blur (which fixes
the constant masks), default parameters. -/
theorem C5_blend_boundary_witness :
    blend_with_mask (fun _ m => m) [0, 255] [7/2, 300]
      (List.replicate 2 0) none 1 2 = [0, 255] ∧
    blend_with_mask (fun _ m => m) [0, 255] [7/2, 300]
      (List.replicate 2 1) none 1 2 = [7/2, 300].map toUint8 :=
  C5_blend_boundary (fun _ m => m) [0, 255] [7/2, 300] none 1 2 2
    rfl rfl (by decide) (fun _ => rfl) (fun _ => rfl)

/-! ## `services/midline.py` — `Midline.midsagittal_line`

`np.linalg.svd` and `np.linalg.norm` are external numpy calls, abstracted
as the parameters `svd` (first row of `vh`, which numpy guarantees to be a
unit vector) and `vnorm` (which numpy guarantees to be 1 on unit vectors).
The anchor slice `np.asarray(landmarks)[[152, 1, 168, 10]]` raises
`IndexError` — caught and turned into `None` — unless all four indices are
in range; `pts.mean(axis=0)` is the componentwise average. -/

def midsagittal_line (svd : List (ℚ × ℚ) → ℚ × ℚ) (vnorm : ℚ × ℚ → ℚ)
    (landmarks : Option (List (ℚ × ℚ))) : Option (Line2D ℚ) :=
  match landmarks with
  | none => none
  | some lms =>
    if lms.length = 0 then none
    else
      match lms.get? 152, lms.get? 1, lms.get? 168, lms.get? 10 with
      | some p152, some p1, some p168, some p10 =>
        let centroid := ((p152.1 + p1.1 + p168.1 + p10.1) / 4,
                         (p152.2 + p1.2 + p168.2 + p10.2) / 4)
        let pts := [p152, p1, p168, p10]
        let centered := pts.map (fun p => (p.1 - centroid.1, p.2 - centroid.2))
        let dir0 := svd centered
        let dir1 := if dir0.2 < 0 then (-dir0.1, -dir0.2) else dir0
        let n := vnorm dir1
        some ⟨centroid, (dir1.1 / n, dir1.2 / n)⟩
      | _, _, _, _ => none

/-- C4: whenever `midsagittal_line` returns a line, its direction is a unit
vector (squared norm exactly 1, hence norm 1 well within 1e-5) with
non-negative vertical component, and its origin is the centroid of the four
anchor landmarks 152, 1, 168, 10; a missing or empty landmark array gives
`None`.  Hypotheses: numpy's `vh` rows are unit vectors, and
`np.linalg.norm` of a unit vector is 1. -/
theorem C4_midsagittal_line (svd : List (ℚ × ℚ) → ℚ × ℚ)
    (vnorm : ℚ × ℚ → ℚ) (lms : Option (List (ℚ × ℚ))) (line : Line2D ℚ)
    (hsvd : ∀ pts, (svd pts).1 ^ 2 + (svd pts).2 ^ 2 = 1)
    (hvnorm : ∀ v, v.1 ^ 2 + v.2 ^ 2 = 1 → vnorm v = 1)
    (hok : midsagittal_line svd vnorm lms = some line) :
    line.direction.1 ^ 2 + line.direction.2 ^ 2 = 1 ∧
    0 ≤ line.direction.2 ∧
    (∃ lms' p152 p1 p168 p10, lms = some lms' ∧
      lms'.get? 152 = some p152 ∧ lms'.get? 1 = some p1 ∧
      lms'.get? 168 = some p168 ∧ lms'.get? 10 = some p10 ∧
      line.origin = ((p152.1 + p1.1 + p168.1 + p10.1) / 4,
                     (p152.2 + p1.2 + p168.2 + p10.2) / 4)) ∧
    midsagittal_line svd vnorm none = none ∧
    midsagittal_line svd vnorm (some []) = none := by
  cases lms with
  | none => exact absurd hok (by simp [midsagittal_line])
  | some lms' =>
    rw [midsagittal_line] at hok
    by_cases h0 : lms'.length = 0
    · rw [if_pos h0] at hok
      exact absurd hok (by simp)
    · rw [if_neg h0] at hok
      cases h152 : lms'.get? 152 with
      | none => rw [h152] at hok; exact absurd hok (by simp)
      | some p152 =>
      cases h1 : lms'.get? 1 with
      | none => rw [h152, h1] at hok; exact absurd hok (by simp)
      | some p1 =>
      cases h168 : lms'.get? 168 with
      | none => rw [h152, h1, h168] at hok; exact absurd hok (by simp)
      | some p168 =>
      cases h10 : lms'.get? 10 with
      | none => rw [h152, h1, h168, h10] at hok; exact absurd hok (by simp)
      | some p10 =>
        rw [h152, h1, h168, h10] at hok
        dsimp only at hok
        injection hok with hline
        subst hline
        set centroid : ℚ × ℚ := ((p152.1 + p1.1 + p168.1 + p10.1) / 4,
          (p152.2 + p1.2 + p168.2 + p10.2) / 4) with hcentroid
        set centered := [p152, p1, p168, p10].map
          (fun p => (p.1 - centroid.1, p.2 - centroid.2)) with hcentered
        set dir0 := svd centered with hdir0
        have hunit0 : dir0.1 ^ 2 + dir0.2 ^ 2 = 1 := hsvd centered
        set dir1 := if dir0.2 < 0 then (-dir0.1, -dir0.2) else dir0 with hdir1
        have hunit1 : dir1.1 ^ 2 + dir1.2 ^ 2 = 1 := by
          rw [hdir1]
          split
          · simp only
            linear_combination hunit0
          · exact hunit0
        have hsign : 0 ≤ dir1.2 := by
          rw [hdir1]
          split
          · simp only
            linarith
          · linarith
        have hn : vnorm dir1 = 1 := hvnorm dir1 hunit1
        refine ⟨?_, ?_, ⟨lms', p152, p1, p168, p10, rfl, h152, h1, h168, h10,
          rfl⟩, rfl, rfl⟩
        · simp only [hn, div_one]
          exact hunit1
        · simp only [hn, div_one]
          exact hsign

/-- Concrete instance of C4: 169 landmarks at the origin, SVD returning the
downward unit vector `(0, -1)` (so the canonical-orientation flip fires). -/
theorem C4_midsagittal_line_witness :
    ∃ line,
      midsagittal_line (fun _ => ((0 : ℚ), -1)) (fun _ => 1)
        (some (List.replicate 169 ((0 : ℚ), (0 : ℚ)))) = some line ∧
      line.direction.1 ^ 2 + line.direction.2 ^ 2 = 1 ∧
      0 ≤ line.direction.2 := by
  have hs : (midsagittal_line (fun _ => ((0 : ℚ), -1)) (fun _ => 1)
      (some (List.replicate 169 ((0 : ℚ), (0 : ℚ))))).isSome = true := rfl
  cases hok : midsagittal_line (fun _ => ((0 : ℚ), -1)) (fun _ => 1)
      (some (List.replicate 169 ((0 : ℚ), (0 : ℚ)))) with
  | none => rw [hok] at hs; exact absurd hs (by simp)
  | some line =>
    obtain ⟨hu, hv, _⟩ := C4_midsagittal_line (fun _ => ((0 : ℚ), -1))
      (fun _ => 1) (some (List.replicate 169 ((0 : ℚ), (0 : ℚ)))) line
      (fun _ => by norm_num) (fun v hv => rfl) hok
    exact ⟨line, rfl, hu, hv⟩

/-! ## `services/pipeline.py` — `_convex_hull` (Andrew's monotone chain)

```python
pts = np.unique(pts, axis=0)            # sorted distinct rows (x, then y)
order = np.lexsort((pts[:, 1], pts[:, 0]))  # same order again
...
lower/upper chains with `cross(...) <= 0` pops
hull = np.array(lower[:-1] + upper[:-1])
return hull if hull.shape[0] >= 3 else None
```

The Python chain lists grow at the tail; they are modelled as stacks with
the most recent element at the head, so Python's `lower` is `.reverse` of
the model's and `lower[:-1]` is `lower.tail.reverse`. -/

/-- `cross(o, a, b)` from `_convex_hull`. -/
def cross (o a b : ℚ × ℚ) : ℚ :=
  (a.1 - o.1) * (b.2 - o.2) - (a.2 - o.2) * (b.1 - o.1)

/-- Strict lexicographic order on points (x first, then y). -/
def lexLt (p q : ℚ × ℚ) : Prop := p.1 < q.1 ∨ (p.1 = q.1 ∧ p.2 < q.2)

/-- Lexicographic order on points (x first, then y); the sort order of
`np.unique(..., axis=0)` and `np.lexsort((y, x))`. -/
def lexLe (p q : ℚ × ℚ) : Prop := p.1 < q.1 ∨ (p.1 = q.1 ∧ p.2 ≤ q.2)

instance decLexLt : ∀ p q, Decidable (lexLt p q) := fun p q =>
  inferInstanceAs (Decidable (_ ∨ _))

instance decLexLe : ∀ p q, Decidable (lexLe p q) := fun p q =>
  inferInstanceAs (Decidable (_ ∨ _))

instance lexLe_total : IsTotal (ℚ × ℚ) lexLe :=
  ⟨fun p q => by
    unfold lexLe
    rcases lt_trichotomy p.1 q.1 with h | h | h
    · exact Or.inl (Or.inl h)
    · rcases le_total p.2 q.2 with h2 | h2
      · exact Or.inl (Or.inr ⟨h, h2⟩)
      · exact Or.inr (Or.inr ⟨h.symm, h2⟩)
    · exact Or.inr (Or.inl h)⟩

instance lexLe_trans : IsTrans (ℚ × ℚ) lexLe :=
  ⟨fun p q r hpq hqr => by
    unfold lexLe at *
    rcases hpq with h | ⟨h, h2⟩ <;> rcases hqr with g | ⟨g, g2⟩
    · exact Or.inl (lt_trans h g)
    · exact Or.inl (g ▸ h)
    · exact Or.inl (h ▸ g)
    · exact Or.inr ⟨h.trans g, le_trans h2 g2⟩⟩

theorem lexLt_of_lexLe_of_ne {p q : ℚ × ℚ} (h : lexLe p q) (hne : p ≠ q) :
    lexLt p q := by
  rcases h with h | ⟨h1, h2⟩
  · exact Or.inl h
  · rcases lt_or_eq_of_le h2 with h2 | h2
    · exact Or.inr ⟨h1, h2⟩
    · exact absurd (Prod.ext h1 h2) hne

theorem lexLe_of_lexLt {p q : ℚ × ℚ} (h : lexLt p q) : lexLe p q := by
  rcases h with h | ⟨h1, h2⟩
  · exact Or.inl h
  · exact Or.inr ⟨h1, le_of_lt h2⟩

theorem lexLt_irrefl (p : ℚ × ℚ) : ¬ lexLt p p := by
  rintro (h | ⟨h1, h2⟩)
  · exact lt_irrefl _ h
  · exact lt_irrefl _ h2

theorem lexLt_asymm {p q : ℚ × ℚ} (h : lexLt p q) : ¬ lexLt q p := by
  rintro (g | ⟨g1, g2⟩) <;> rcases h with h | ⟨h1, h2⟩
  · exact lt_asymm h g
  · exact absurd (h1 ▸ g) (lt_irrefl _)
  · exact absurd (g1 ▸ h) (lt_irrefl _)
  · exact lt_asymm h2 g2

theorem lexLe_antisymm {p q : ℚ × ℚ} (h : lexLe p q) (g : lexLe q p) :
    p = q := by
  by_contra hne
  exact lexLt_asymm (lexLt_of_lexLe_of_ne h hne)
    (lexLt_of_lexLe_of_ne g (Ne.symm hne))

theorem lexLt_trans {p q r : ℚ × ℚ} (h : lexLt p q) (g : lexLt q r) :
    lexLt p r :=
  lexLt_of_lexLe_of_ne (lexLe_trans.trans _ _ _ (lexLe_of_lexLt h) (lexLe_of_lexLt g))
    (fun hpr => lexLt_asymm h (hpr ▸ g))

theorem lexLt_of_lexLe_of_lexLt {p q r : ℚ × ℚ} (h : lexLe p q)
    (g : lexLt q r) : lexLt p r := by
  rcases eq_or_ne p q with rfl | hne
  · exact g
  · exact lexLt_trans (lexLt_of_lexLe_of_ne h hne) g

theorem lexLt_of_lexLt_of_lexLe {p q r : ℚ × ℚ} (h : lexLt p q)
    (g : lexLe q r) : lexLt p r := by
  rcases eq_or_ne q r with rfl | hne
  · exact h
  · exact lexLt_trans h (lexLt_of_lexLe_of_ne g hne)

theorem lexLe_x {p q : ℚ × ℚ} (h : lexLe p q) : p.1 ≤ q.1 := by
  rcases h with h | ⟨h, _⟩
  · exact le_of_lt h
  · exact le_of_eq h

/-! ### Sign identities for `cross` -/

theorem cross_swap23 (o a b : ℚ × ℚ) : cross o a b = -cross o b a := by
  unfold cross; ring

theorem cross_cyclic (a b c : ℚ × ℚ) : cross a b c = cross b c a := by
  unfold cross; ring

theorem cross_swap12 (o a b : ℚ × ℚ) : cross o a b = -cross a o b := by
  unfold cross; ring

theorem cross_self_right (a b : ℚ × ℚ) : cross a b b = 0 := by
  unfold cross; ring

theorem cross_self_outer (a b : ℚ × ℚ) : cross a b a = 0 := by
  unfold cross; ring

/-! ### Algebraic kernel lemmas of the monotone-chain proof

Each lemma relates the orientations of three/four points constrained by
the lexicographic processing order; each is proved from an exact
polynomial identity plus sign reasoning, with a separate case for a
vertical reference edge. -/

/-- Pop safety: if every `q` in the range of edge `(a, b)` is on its left
and the new point `p` is on its right or on it, the points stay left of
the replacement edge `(a, p)`. -/
theorem keyA {a b p q : ℚ × ℚ} (hab : lexLt a b) (haq : lexLe a q)
    (hap : a.1 ≤ p.1) (hq : 0 ≤ cross a b q) (hp : cross a b p ≤ 0) :
    0 ≤ cross a p q := by
  have key : (b.1 - a.1) * cross a p q =
      (p.1 - a.1) * cross a b q - (q.1 - a.1) * cross a b p := by
    unfold cross; ring
  rcases hab with hx | ⟨hx, hy⟩
  · have h1 : 0 ≤ (p.1 - a.1) * cross a b q :=
      mul_nonneg (by linarith) hq
    have h2 : 0 ≤ -((q.1 - a.1) * cross a b p) := by
      have : 0 ≤ (q.1 - a.1) * (-cross a b p) :=
        mul_nonneg (by linarith [lexLe_x haq]) (by linarith)
      linarith [this]
    nlinarith [key, h1, h2, hx]
  · -- vertical reference edge: a.1 = b.1, a.2 < b.2
    have hq' : q.1 = a.1 ∧ a.2 ≤ q.2 := by
      have hqx : (b.1 - a.1) * (q.2 - a.2) - (b.2 - a.2) * (q.1 - a.1) =
          cross a b q := by unfold cross; ring
      rw [← hx] at hqx
      have : -(b.2 - a.2) * (q.1 - a.1) = cross a b q := by
        rw [← hqx]; ring
      have hle : q.1 ≤ a.1 := by nlinarith [hq, this, hy]
      rcases haq with h | ⟨h1, h2⟩
      · linarith
      · exact ⟨h1.symm, h2⟩
    have : cross a p q = (p.1 - a.1) * (q.2 - a.2) := by
      unfold cross
      rw [hq'.1]
      ring
    rw [this]
    exact mul_nonneg (by linarith) (by linarith [hq'.2])

/-- Forward propagation: left of edge `(s, t)` and lex-below `t` implies
left of the next edge `(t, u)` of a strictly turning chain. -/
theorem keyB {s t u q : ℚ × ℚ} (hst : lexLt s t) (htu : lexLt t u)
    (hqt : lexLe q t) (hturn : 0 < cross s t u) (hq : 0 ≤ cross s t q) :
    0 ≤ cross t u q := by
  have key : (t.1 - s.1) * cross t u q =
      (u.1 - t.1) * cross s t q - (q.1 - t.1) * cross s t u := by
    unfold cross; ring
  rcases hst with hx | ⟨hx, hy⟩
  · have h1 : 0 ≤ (u.1 - t.1) * cross s t q :=
      mul_nonneg (by linarith [lexLe_x (lexLe_of_lexLt htu)]) hq
    have h2 : 0 ≤ -((q.1 - t.1) * cross s t u) := by
      have : 0 ≤ (t.1 - q.1) * cross s t u :=
        mul_nonneg (by linarith [lexLe_x hqt]) (le_of_lt hturn)
      nlinarith [this]
    nlinarith [key, h1, h2, hx]
  · -- vertical (s, t) is impossible under a strict left turn to u
    exfalso
    have hc : cross s t u = -(t.2 - s.2) * (u.1 - t.1) := by
      unfold cross
      rw [hx]
      ring
    have hux : t.1 ≤ u.1 := lexLe_x (lexLe_of_lexLt htu)
    nlinarith [hturn, hc, hy, hux]

/-- Backward propagation: left of edge `(t, u)` and lex-above `t` implies
left of the previous edge `(s, t)` of a strictly turning chain. -/
theorem keyB' {s t u q : ℚ × ℚ} (hst : lexLt s t) (htu : lexLt t u)
    (htq : lexLe t q) (hturn : 0 < cross s t u) (hq : 0 ≤ cross t u q) :
    0 ≤ cross s t q := by
  have key : (u.1 - t.1) * cross s t q =
      (q.1 - t.1) * cross s t u - (s.1 - t.1) * cross t u q := by
    unfold cross; ring
  rcases eq_or_lt_of_le (lexLe_x (lexLe_of_lexLt htu)) with hx | hx
  · -- vertical (t, u): forces q on the same vertical line
    have huy : t.2 < u.2 := by
      rcases htu with h | ⟨_, h⟩
      · exact absurd hx (ne_of_lt h)
      · exact h
    have hcp : cross s t u = (t.1 - s.1) * (u.2 - t.2) := by
      unfold cross
      rw [← hx]
      ring
    have hts : s.1 < t.1 := by
      rcases lt_or_eq_of_le (lexLe_x (lexLe_of_lexLt hst)) with h | h
      · exact h
      · exfalso
        nlinarith [hturn, hcp]
    have hqx : q.1 = t.1 := by
      have hcq : cross t u q = -(u.2 - t.2) * (q.1 - t.1) := by
        unfold cross
        rw [← hx]
        ring
      have h1 : q.1 ≤ t.1 := by nlinarith [hq, hcq, huy]
      linarith [lexLe_x htq]
    have hqy : t.2 ≤ q.2 := by
      rcases htq with h | ⟨_, h⟩
      · exact absurd hqx (ne_of_gt h)
      · exact h
    have : cross s t q = (t.1 - s.1) * (q.2 - t.2) := by
      unfold cross
      rw [hqx]
      ring
    rw [this]
    exact mul_nonneg (by linarith) (by linarith)
  · have h1 : 0 ≤ (q.1 - t.1) * cross s t u :=
      mul_nonneg (by linarith [lexLe_x htq]) (le_of_lt hturn)
    have h2 : 0 ≤ -((s.1 - t.1) * cross t u q) := by
      have : 0 ≤ (t.1 - s.1) * cross t u q :=
        mul_nonneg (by linarith [lexLe_x (lexLe_of_lexLt hst)]) hq
      nlinarith [this]
    nlinarith [key, h1, h2, hx]

/-- Head safety across pops: once the popped point `b` lies on or right of
`(a, p)` is not needed — being left of the shrinking top edge `(b, p)`
and lex-between keeps `q` left of `(a, p)`. -/
theorem keyC {a b p q : ℚ × ℚ} (hab : lexLt a b) (hbq : lexLe b q)
    (hqp : lexLe q p) (hp : cross a b p ≤ 0) (hq : 0 ≤ cross b p q) :
    0 ≤ cross a p q := by
  have key : (p.1 - b.1) * cross a p q =
      (p.1 - a.1) * cross b p q + (p.1 - q.1) * (-cross a b p) := by
    unfold cross; ring
  have hbp : b.1 ≤ p.1 := le_trans (lexLe_x hbq) (lexLe_x hqp)
  rcases eq_or_lt_of_le hbp with hx | hx
  · -- b, q, p share one x-column (hx : b.1 = p.1)
    have hqx : q.1 = b.1 := by
      have h1 := lexLe_x hbq
      have h2 := lexLe_x hqp
      linarith
    have hbqy : b.2 ≤ q.2 := by
      rcases hbq with h | ⟨_, h⟩
      · exact absurd hqx (ne_of_gt h)
      · exact h
    have hqpy : q.2 ≤ p.2 := by
      rcases hqp with h | ⟨_, h⟩
      · exfalso
        rw [hqx] at h
        exact absurd hx (ne_of_lt h)
      · exact h
    rcases eq_or_lt_of_le (lexLe_x (lexLe_of_lexLt hab)) with hax | hax
    · -- a on the same column too: everything is collinear
      have hz : cross a p q = 0 := by
        unfold cross
        rw [hqx, ← hx, ← hax]
        ring
      linarith [hz]
    · -- cross a b p ≤ 0 forces p.2 ≤ b.2, so the column collapses
      have hpb : p.2 ≤ b.2 := by
        have hc : cross a b p = (b.1 - a.1) * (p.2 - b.2) := by
          unfold cross
          rw [← hx]
          ring
        nlinarith [hp, hc, hax]
      have hq2 : q.2 = p.2 := le_antisymm hqpy (by linarith)
      have hz : cross a p q = 0 := by
        unfold cross
        rw [hqx, hq2, ← hx]
        ring
      linarith [hz]
  · have h1 : 0 ≤ (p.1 - a.1) * cross b p q :=
      mul_nonneg (by linarith [lexLe_x (lexLe_of_lexLt hab)]) hq
    have h2 : 0 ≤ (p.1 - q.1) * (-cross a b p) :=
      mul_nonneg (by linarith [lexLe_x hqp]) (by linarith)
    nlinarith [key, h1, h2, hx]

/-- Collinear pivot, backward side: a point `u` on the line of `(s, t)` and
lex-at-most `t` reverses the orientation of any `x` left of `(s, t)`. -/
theorem keySeam {s t u x : ℚ × ℚ} (hcol : cross s t u = 0) (hst : lexLt s t)
    (hut : lexLe u t) (hne : u ≠ t) (hx : 0 ≤ cross s t x) :
    cross t u x ≤ 0 := by
  have key : (t.1 - s.1) * cross t u x =
      (u.1 - t.1) * cross s t x - (x.1 - t.1) * cross s t u := by
    unfold cross; ring
  rw [hcol] at key
  rcases hst with h | ⟨h1, h2⟩
  · have h1 : (u.1 - t.1) * cross s t x ≤ 0 :=
      mul_nonpos_of_nonpos_of_nonneg (by linarith [lexLe_x hut]) hx
    nlinarith [key, h1, h]
  · -- vertical (s, t): collinearity forces u on the column below t
    have hux : u.1 = t.1 := by
      have hc : cross s t u = -(t.2 - s.2) * (u.1 - t.1) := by
        unfold cross
        rw [h1]
        ring
      rw [hcol] at hc
      have := lexLe_x hut
      rcases eq_or_lt_of_le this with h' | h'
      · exact h'
      · exfalso
        nlinarith [hc, h2, h']
    have huy : u.2 < t.2 := by
      rcases hut with h' | ⟨_, h'⟩
      · exact absurd hux (ne_of_lt h')
      · exact lt_of_le_of_ne h' (fun he => hne (Prod.ext hux he))
    have hxx : x.1 ≤ t.1 := by
      have hc : cross s t x = -(t.2 - s.2) * (x.1 - t.1) := by
        unfold cross
        rw [h1]
        ring
      nlinarith [hx, hc, h2]
    have hc2 : cross t u x = (t.2 - u.2) * (x.1 - t.1) := by
      unfold cross
      rw [hux]
      ring
    rw [hc2]
    exact mul_nonpos_of_nonneg_of_nonpos (by linarith) (by linarith)

/-- Collinear pivot, forward side: a point `u` on the line of `(s, t)` and
lex-at-least `t` preserves the orientation of any `x` left of `(s, t)`. -/
theorem keySeam' {s t u x : ℚ × ℚ} (hcol : cross s t u = 0) (hst : lexLt s t)
    (htu : lexLe t u) (hx : 0 ≤ cross s t x) :
    0 ≤ cross t u x := by
  have key : (t.1 - s.1) * cross t u x =
      (u.1 - t.1) * cross s t x - (x.1 - t.1) * cross s t u := by
    unfold cross; ring
  rw [hcol] at key
  rcases hst with h | ⟨h1, h2⟩
  · have h1 : 0 ≤ (u.1 - t.1) * cross s t x :=
      mul_nonneg (by linarith [lexLe_x htu]) hx
    nlinarith [key, h1, h]
  · -- vertical (s, t): u is on the column above t
    have hux : u.1 = t.1 := by
      have hc : cross s t u = -(t.2 - s.2) * (u.1 - t.1) := by
        unfold cross
        rw [h1]
        ring
      rw [hcol] at hc
      have := lexLe_x htu
      rcases eq_or_lt_of_le this with h' | h'
      · exact h'.symm
      · exfalso
        nlinarith [hc, h2, h']
    have huy : t.2 ≤ u.2 := by
      rcases htu with h' | ⟨_, h'⟩
      · exact absurd hux (ne_of_gt h')
      · exact h'
    have hxx : x.1 ≤ t.1 := by
      have hc : cross s t x = -(t.2 - s.2) * (x.1 - t.1) := by
        unfold cross
        rw [h1]
        ring
      nlinarith [hx, hc, h2]
    have hc2 : cross t u x = (t.2 - u.2) * (x.1 - t.1) := by
      unfold cross
      rw [hux]
      ring
    rw [hc2]
    nlinarith [huy, hxx]

/-- Three points on the line through distinct `a`, `b` are collinear. -/
theorem keyColl {a b x y z : ℚ × ℚ} (hne : a ≠ b) (hx : cross a b x = 0)
    (hy : cross a b y = 0) (hz : cross a b z = 0) : cross x y z = 0 := by
  have key1 : (b.1 - a.1) * cross x y z =
      (y.1 - x.1) * (cross a b z - cross a b x) -
        (z.1 - x.1) * (cross a b y - cross a b x) := by
    unfold cross; ring
  have key2 : (b.2 - a.2) * cross x y z =
      (y.2 - x.2) * (cross a b z - cross a b x) -
        (z.2 - x.2) * (cross a b y - cross a b x) := by
    unfold cross; ring
  rw [hx, hy, hz] at key1 key2
  simp at key1 key2
  rcases key1 with h | h
  · rcases key2 with h' | h'
    · exact absurd (Prod.ext (by linarith) (by linarith)) hne
    · exact h'
  · exact h

/-! ### The chain builder -/

/-- The `while len(...) >= 2 and cross(...) <= 0: pop()` loop for one new
point `p`; the stack keeps its most recent element at the head. -/
def popWhile (p : ℚ × ℚ) : List (ℚ × ℚ) → List (ℚ × ℚ)
  | b :: a :: rest =>
    if cross a b p ≤ 0 then popWhile p (a :: rest) else b :: a :: rest
  | l => l

/-- `for p in pts: pop...; append(p)` over the whole input. -/
def buildChain : List (ℚ × ℚ) → List (ℚ × ℚ) → List (ℚ × ℚ)
  | acc, [] => acc
  | acc, p :: ps => buildChain (p :: popWhile p acc) ps

/-- `np.unique(pts, axis=0)` (+ the redundant `np.lexsort`): sorted
distinct points, x first then y. -/
def sortedDedupPts (pts : List (ℚ × ℚ)) : List (ℚ × ℚ) :=
  pts.dedup.insertionSort lexLe

/-- `_convex_hull(points)`. -/
def _convex_hull (points : Option (List (ℚ × ℚ))) :
    Option (List (ℚ × ℚ)) :=
  match points with
  | none => none
  | some pts0 =>
    if pts0.length = 0 then none
    else
      let pts := sortedDedupPts pts0
      if pts.length < 3 then none
      else
        let lower := buildChain [] pts
        let upper := buildChain [] pts.reverse
        let hull := lower.tail.reverse ++ upper.tail.reverse
        if 3 ≤ hull.length then some hull else none

/-- Strict left turns along the stack (head = most recent). -/
def ChainTurns : List (ℚ × ℚ) → Prop
  | c :: b :: a :: rest => 0 < cross a b c ∧ ChainTurns (b :: a :: rest)
  | _ => True

/-- Strictly lex-decreasing from the head (the stack top is newest). -/
def ChainSorted (S : List (ℚ × ℚ)) : Prop :=
  List.Chain' (fun x y => lexLt y x) S

/-- `q` is on or left of every edge of the stack whose lex range contains
`q` (an edge `[b, a]` in stack order runs chronologically `a → b`). -/
def RangeLeftPt (S : List (ℚ × ℚ)) (q : ℚ × ℚ) : Prop :=
  ∀ a b : ℚ × ℚ, [b, a] <:+: S → lexLe a q → lexLe q b → 0 ≤ cross a b q

/-- `q` is on or left of every edge of the stack. -/
def GlobalLeftPt (S : List (ℚ × ℚ)) (q : ℚ × ℚ) : Prop :=
  ∀ a b : ℚ × ℚ, [b, a] <:+: S → 0 ≤ cross a b q

instance lexLt_trans_inst : IsTrans (ℚ × ℚ) lexLt :=
  ⟨fun _ _ _ => lexLt_trans⟩

theorem chainTurns_tail : ∀ {l : List (ℚ × ℚ)} {x : ℚ × ℚ},
    ChainTurns (x :: l) → ChainTurns l
  | [], _, _ => trivial
  | [_], _, _ => trivial
  | _ :: _ :: _, _, h => h.2

theorem popWhile_suffix (p : ℚ × ℚ) : ∀ S, popWhile p S <:+ S := by
  intro S
  induction S with
  | nil => exact List.suffix_refl _
  | cons b S' ih =>
    cases S' with
    | nil => exact List.suffix_refl _
    | cons a rest =>
      rw [popWhile]
      split
      · exact (ih ).trans (List.suffix_cons b (a :: rest))
      · exact List.suffix_refl _

theorem popWhile_ne_nil (p : ℚ × ℚ) :
    ∀ S, S ≠ [] → popWhile p S ≠ [] := by
  intro S
  induction S with
  | nil => exact fun h => absurd rfl h
  | cons b S' ih =>
    intro _
    cases S' with
    | nil => simp [popWhile]
    | cons a rest =>
      rw [popWhile]
      split
      · exact ih (by simp)
      · simp

theorem popWhile_getLast? (p : ℚ × ℚ) :
    ∀ S, (popWhile p S).getLast? = S.getLast? := by
  intro S
  induction S with
  | nil => rfl
  | cons b S' ih =>
    cases S' with
    | nil => rfl
    | cons a rest =>
      rw [popWhile]
      split
      · rw [ih, List.getLast?_cons_cons]
      · rfl

theorem rangeLeft_of_suffix {S T : List (ℚ × ℚ)} {q : ℚ × ℚ}
    (hsuf : T <:+ S) (h : RangeLeftPt S q) : RangeLeftPt T q :=
  fun a b hin ha hb => h a b (hin.trans hsuf.isInfix) ha hb

/-- Core of the pop loop: the final stack top `t` keeps every processed
point in its lex range on or left of the new edge `(t, p)`, and pushing
`p` creates a strict turn. -/
theorem popWhile_core (P : List (ℚ × ℚ)) (p : ℚ × ℚ)
    (hPp : ∀ q ∈ P, lexLt q p) :
    ∀ S, (∀ x ∈ S, x ∈ P) → ChainSorted S → ChainTurns S →
      (∀ q ∈ P, RangeLeftPt S q) →
      (∀ q ∈ P, ∀ t, S.head? = some t → lexLe t q → 0 ≤ cross t p q) →
      (∀ q ∈ P, ∀ t, (popWhile p S).head? = some t → lexLe t q →
        0 ≤ cross t p q) ∧
      ChainTurns (p :: popWhile p S) := by
  intro S
  induction S with
  | nil =>
    intro _ _ _ _ hsafe
    exact ⟨hsafe, trivial⟩
  | cons b S' ih =>
    intro hsub hsorted hturns hrange hsafe
    cases S' with
    | nil =>
      refine ⟨?_, trivial⟩
      intro q hq t ht
      rw [show popWhile p [b] = [b] from rfl] at ht
      exact hsafe q hq t ht
    | cons a rest =>
      rw [popWhile]
      split
      · -- pop b; the new top is a (or deeper)
        rename_i hple
        have hab : lexLt a b := by
          have := hsorted
          rw [ChainSorted, List.chain'_cons] at this
          exact this.1
        apply ih
        · exact fun x hx => hsub x (List.mem_cons_of_mem b hx)
        · exact (List.chain'_cons.mp hsorted).2
        · exact chainTurns_tail hturns
        · exact fun q hq => rangeLeft_of_suffix
            (List.suffix_cons b (a :: rest)) (hrange q hq)
        · -- new head safety at a
          intro q hq t ht haq
          rw [List.head?_cons] at ht
          injection ht with ht
          subst ht
          have hap : a.1 ≤ p.1 :=
            lexLe_x (lexLe_of_lexLt (hPp a (hsub a
              (List.mem_cons_of_mem b (List.mem_cons_self a rest)))))
          by_cases hqb : lexLe q b
          · -- q in range of the popped edge (a, b)
            have h1 : 0 ≤ cross a b q := by
              apply hrange q hq a b _ haq hqb
              exact ⟨[], rest, rfl⟩
            exact keyA hab haq hap h1 hple
          · -- q beyond b: use head safety at b
            have hbq : lexLe b q := (lexLe_total.total q b).resolve_left hqb
            have h2 : 0 ≤ cross b p q :=
              hsafe q hq b rfl hbq
            exact keyC hab hbq (lexLe_of_lexLt (hPp q hq)) hple h2
      · -- stop: strict turn onto p
        rename_i hstop
        push_neg at hstop
        refine ⟨?_, hstop, hturns⟩
        intro q hq t ht
        exact hsafe q hq t ht

/-- Invariant of the chain stack after processing the prefix `P` of the
sorted input. -/
structure ChainInv (P S : List (ℚ × ℚ)) : Prop where
  ne : S ≠ []
  sub : ∀ x ∈ S, x ∈ P
  sorted : ChainSorted S
  turns : ChainTurns S
  range : ∀ q ∈ P, RangeLeftPt S q
  top_max : ∀ q ∈ P, ∀ t, S.head? = some t → lexLe q t
  head_last : S.head? = P.getLast?
  last_head : S.getLast? = P.head?

theorem chainInv_step {P S : List (ℚ × ℚ)} {p : ℚ × ℚ}
    (inv : ChainInv P S) (hPp : ∀ q ∈ P, lexLt q p) :
    ChainInv (P ++ [p]) (p :: popWhile p S) := by
  have hsafe0 : ∀ q ∈ P, ∀ t, S.head? = some t → lexLe t q →
      0 ≤ cross t p q := by
    intro q hq t ht htq
    have : q = t := lexLe_antisymm (inv.top_max q hq t ht) htq
    rw [this, cross_self_outer]
  obtain ⟨hsafe, hturns'⟩ := popWhile_core P p hPp S inv.sub inv.sorted
    inv.turns inv.range hsafe0
  have hTne : popWhile p S ≠ [] := popWhile_ne_nil p S inv.ne
  have hTsub : ∀ x ∈ popWhile p S, x ∈ P := fun x hx =>
    inv.sub x ((popWhile_suffix p S).subset hx)
  refine ⟨by simp, ?_, ?_, hturns', ?_, ?_, ?_, ?_⟩
  · intro x hx
    rcases List.mem_cons.mp hx with rfl | hx
    · exact List.mem_append_right _ (List.mem_singleton_self _)
    · exact List.mem_append_left _ (hTsub x hx)
  · -- sortedness: the new head is strictly above the old top
    rw [ChainSorted, List.chain'_cons']
    constructor
    · intro h hh
      exact hPp h (hTsub h (List.mem_of_mem_head? hh))
    · exact inv.sorted.suffix (popWhile_suffix p S)
  · -- range left for all processed points
    intro q hq a b hin ha hb
    rcases List.mem_append.mp hq with hq | hq
    · -- an old point
      rcases (List.infix_cons_iff.mp hin) with hpre | hin'
      · -- the new head edge (top, p)
        obtain ⟨b', hb'⟩ := hpre
        injection hb' with hb1 hb2
        have ha' : (popWhile p S).head? = some a := by
          cases hT : popWhile p S with
          | nil => exact absurd hT hTne
          | cons x T' =>
            rw [hT] at hb2
            injection hb2 with hx htl
            rw [List.head?_cons, hx]
        rw [hb1]
        exact hsafe q hq a ha' ha
      · -- an edge of the surviving stack
        exact inv.range q hq a b (hin'.trans (popWhile_suffix p S).isInfix)
          ha hb
    · -- the new point itself
      have hqp : q = p := List.mem_singleton.mp hq
      rcases (List.infix_cons_iff.mp hin) with hpre | hin'
      · obtain ⟨b', hb'⟩ := hpre
        injection hb' with hb1 hb2
        rw [hqp, hb1, cross_self_right]
      · exfalso
        have hbP : b ∈ P := hTsub b (hin'.subset (List.mem_cons_self b [a]))
        rw [hqp] at hb
        exact lexLt_irrefl p (lexLt_of_lexLe_of_lexLt hb (hPp b hbP))
  · -- the new point is the lex max
    intro q hq t ht
    rw [List.head?_cons] at ht
    injection ht with ht
    rcases List.mem_append.mp hq with hq' | hq'
    · rw [← ht]
      exact lexLe_of_lexLt (hPp q hq')
    · have hqp : q = p := List.mem_singleton.mp hq'
      rw [hqp, ← ht]
      exact (lexLe_total.total p p).elim id id
  · rw [List.head?_cons, List.getLast?_concat]
  · have hPne : P ≠ [] := by
      obtain ⟨y, S', hS⟩ := List.exists_cons_of_ne_nil inv.ne
      have hy : y ∈ P := inv.sub y (by rw [hS]; exact List.mem_cons_self y S')
      exact List.ne_nil_of_mem hy
    obtain ⟨x, T', hT⟩ := List.exists_cons_of_ne_nil hTne
    rw [show (p :: popWhile p S).getLast? = (popWhile p S).getLast? by
        rw [hT, List.getLast?_cons_cons],
      popWhile_getLast? p S, inv.last_head]
    obtain ⟨y, P', hP⟩ := List.exists_cons_of_ne_nil hPne
    rw [hP]
    simp

theorem buildChain_inv :
    ∀ (input P S : List (ℚ × ℚ)), ChainInv P S →
      (∀ q ∈ P, ∀ x ∈ input, lexLt q x) → List.Pairwise lexLt input →
      ChainInv (P ++ input) (buildChain S input) := by
  intro input
  induction input with
  | nil =>
    intro P S inv _ _
    rw [List.append_nil]
    exact inv
  | cons p ps ih =>
    intro P S inv hcross hpw
    rw [buildChain]
    have step := chainInv_step inv (fun q hq => hcross q hq p
      (List.mem_cons_self p ps))
    have := ih (P ++ [p]) (p :: popWhile p S) step ?_ (List.Pairwise.of_cons hpw)
    · rwa [List.append_assoc, List.singleton_append] at this
    · intro q hq x hx
      rcases List.mem_append.mp hq with hq | hq
      · exact hcross q hq x (List.mem_cons_of_mem p hx)
      · rcases List.mem_singleton.mp hq with rfl
        exact (List.pairwise_cons.mp hpw).1 x hx

/-- The full invariant for a chain built from a strictly sorted non-empty
input. -/
theorem buildChain_full {pts : List (ℚ × ℚ)} (hpw : List.Pairwise lexLt pts)
    (hne : pts ≠ []) : ChainInv pts (buildChain [] pts) := by
  cases pts with
  | nil => exact absurd rfl hne
  | cons x xs =>
    have base : ChainInv [x] [x] := by
      refine ⟨by simp, by simp, ?_, trivial, ?_, ?_, rfl, rfl⟩
      · exact List.chain'_singleton x
      · intro q hq a b hin ha hb
        exfalso
        have := hin.length_le
        simp at this
      · intro q hq t ht
        rw [List.head?_cons] at ht
        injection ht with ht
        have hqx : q = x := List.mem_singleton.mp hq
        rw [hqx, ← ht]
        exact (lexLe_total.total x x).elim id id
    have step := buildChain_inv xs [x] [x] base ?_ (List.Pairwise.of_cons hpw)
    · rw [buildChain, show popWhile x [] = [] from rfl]
      exact step
    · intro q hq y hy
      rcases List.mem_singleton.mp hq with rfl
      exact (List.pairwise_cons.mp hpw).1 y hy

/-- Backward propagation along a chain: leftness at the head edge spreads
to every older edge. -/
theorem glback : ∀ (rest : List (ℚ × ℚ)) (b c q : ℚ × ℚ),
    ChainSorted (c :: b :: rest) → ChainTurns (c :: b :: rest) →
    lexLe b q → 0 ≤ cross b c q →
    GlobalLeftPt (c :: b :: rest) q := by
  intro rest
  induction rest with
  | nil =>
    intro b c q _ _ _ hq x y hin
    have hlen : ([y, x] : List (ℚ × ℚ)).length = ([c, b] : List (ℚ × ℚ)).length := by
      rfl
    have := hin.eq_of_length hlen
    injection this with h1 h2
    injection h2 with h2 h3
    rw [h1, h2]
    exact hq
  | cons a rest' ih =>
    intro b c q hsorted hturns hbq hq x y hin
    rcases List.infix_cons_iff.mp hin with hpre | hin'
    · obtain ⟨t', ht'⟩ := hpre
      injection ht' with h1 h2
      injection h2 with h2 h3
      rw [← h1, ← h2] at hq
      exact hq
    · have hab : lexLt a b := (List.chain'_cons.mp
        (List.chain'_cons.mp hsorted).2).1
      have hbc : lexLt b c := (List.chain'_cons.mp hsorted).1
      have hturn : 0 < cross a b c := hturns.1
      have hq' : 0 ≤ cross a b q := keyB' hab hbc hbq hturn hq
      exact ih a b q (List.chain'_cons.mp hsorted).2 (chainTurns_tail hturns)
        (lexLe_trans.trans _ _ _ (lexLe_of_lexLt hab) hbq) hq' x y hin'

/-- From range-leftness (plus the chain structure) to leftness of every
edge of the chain. -/
theorem globalLeft : ∀ (S : List (ℚ × ℚ)) (q : ℚ × ℚ),
    ChainSorted S → ChainTurns S → RangeLeftPt S q →
    (∀ t, S.head? = some t → lexLe q t) →
    (∀ bt, S.getLast? = some bt → lexLe bt q) →
    GlobalLeftPt S q := by
  intro S
  induction S with
  | nil =>
    intro q _ _ _ _ _ x y hin
    exfalso
    have := hin.length_le
    simp at this
  | cons c S' ih =>
    cases S' with
    | nil =>
      intro q _ _ _ _ _ x y hin
      exfalso
      have := hin.length_le
      simp at this
    | cons b rest =>
      intro q hsorted hturns hrange htop hbot
      by_cases hqb : lexLe q b
      · have htail : GlobalLeftPt (b :: rest) q := by
          apply ih q (List.chain'_cons.mp hsorted).2 (chainTurns_tail hturns)
            (rangeLeft_of_suffix (List.suffix_cons c (b :: rest)) hrange)
          · intro t ht
            rw [List.head?_cons] at ht
            injection ht with ht
            rw [← ht]
            exact hqb
          · intro bt hbt
            exact hbot bt (by rw [List.getLast?_cons_cons]; exact hbt)
        intro x y hin
        rcases List.infix_cons_iff.mp hin with hpre | hin'
        · obtain ⟨t', ht'⟩ := hpre
          injection ht' with h1 h2
          injection h2 with h2 h3
          rw [h1, h2]
          cases rest with
          | nil =>
            -- two-element chain: the bottom equals b, so q = b
            have hbq : lexLe b q := hbot b rfl
            have : q = b := lexLe_antisymm hqb hbq
            rw [this, cross_self_outer]
          | cons a rest' =>
            have hab : lexLt a b := (List.chain'_cons.mp
              (List.chain'_cons.mp hsorted).2).1
            have hbc : lexLt b c := (List.chain'_cons.mp hsorted).1
            have hturn : 0 < cross a b c := hturns.1
            have h1 : 0 ≤ cross a b q :=
              htail a b ⟨[], rest', rfl⟩
            exact keyB hab hbc hqb hturn h1
        · exact htail x y hin'
      · have hbq : lexLe b q := (lexLe_total.total q b).resolve_left hqb
        have hqc : lexLe q c := htop c rfl
        have hhead : 0 ≤ cross b c q :=
          hrange b c ⟨[], rest, rfl⟩ hbq hqc
        exact glback rest b c q hsorted hturns hbq hhead

/-! ### Negation transfer: the upper chain is the lower chain of the
negated, reversed input -/

def negPt (p : ℚ × ℚ) : ℚ × ℚ := (-p.1, -p.2)

theorem negPt_fst (p : ℚ × ℚ) : (negPt p).1 = -p.1 := rfl

theorem negPt_snd (p : ℚ × ℚ) : (negPt p).2 = -p.2 := rfl

theorem negPt_negPt (p : ℚ × ℚ) : negPt (negPt p) = p := by
  unfold negPt
  simp

theorem negPt_inj {p q : ℚ × ℚ} (h : negPt p = negPt q) : p = q := by
  rw [← negPt_negPt p, h, negPt_negPt]

theorem cross_negPt (a b c : ℚ × ℚ) :
    cross (negPt a) (negPt b) (negPt c) = cross a b c := by
  unfold cross negPt
  ring

theorem lexLt_negPt {p q : ℚ × ℚ} : lexLt (negPt p) (negPt q) ↔ lexLt q p := by
  simp only [lexLt, negPt_fst, negPt_snd]
  constructor
  · rintro (h | ⟨h1, h2⟩)
    · exact Or.inl (by linarith)
    · exact Or.inr ⟨by linarith, by linarith⟩
  · rintro (h | ⟨h1, h2⟩)
    · exact Or.inl (by linarith)
    · exact Or.inr ⟨by linarith, by linarith⟩

theorem lexLe_refl (p : ℚ × ℚ) : lexLe p p := Or.inr ⟨rfl, le_refl _⟩

theorem popWhile_map_negPt (p : ℚ × ℚ) :
    ∀ S, popWhile (negPt p) (S.map negPt) = (popWhile p S).map negPt := by
  intro S
  induction S with
  | nil => rfl
  | cons b S' ih =>
    cases S' with
    | nil => rfl
    | cons a rest =>
      simp only [List.map_cons, popWhile, cross_negPt]
      by_cases h : cross a b p ≤ 0
      · rw [if_pos h, if_pos h, ← List.map_cons]
        simpa using ih
      · rw [if_neg h, if_neg h, List.map_cons, List.map_cons]

theorem buildChain_map_negPt :
    ∀ (input acc : List (ℚ × ℚ)),
      buildChain (acc.map negPt) (input.map negPt) =
        (buildChain acc input).map negPt := by
  intro input
  induction input with
  | nil => intro acc; rfl
  | cons p ps ih =>
    intro acc
    rw [List.map_cons, buildChain, buildChain, popWhile_map_negPt,
      ← List.map_cons]
    exact ih _

theorem chainTurns_of_map_negPt :
    ∀ S, ChainTurns (S.map negPt) → ChainTurns S
  | [], _ => trivial
  | [_], _ => trivial
  | [_, _], _ => trivial
  | c :: b :: a :: rest, h => by
    rw [List.map_cons, List.map_cons, List.map_cons] at h
    exact ⟨by rw [← cross_negPt]; exact h.1,
      chainTurns_of_map_negPt (b :: a :: rest) h.2⟩

theorem globalLeft_of_map_negPt {S : List (ℚ × ℚ)} {q : ℚ × ℚ}
    (h : GlobalLeftPt (S.map negPt) (negPt q)) : GlobalLeftPt S q := by
  intro a b hin
  rw [← cross_negPt]
  have hmap : [negPt b, negPt a] <:+: S.map negPt := by
    simpa using hin.map negPt
  exact h (negPt a) (negPt b) hmap

theorem pairwise_negPt_reverse {pts : List (ℚ × ℚ)}
    (h : pts.Pairwise lexLt) :
    ((pts.reverse).map negPt).Pairwise lexLt := by
  rw [List.pairwise_map, List.pairwise_reverse]
  exact h.imp (fun hab => lexLt_negPt.mpr hab)

/-! ### List utilities for assembling the hull -/

theorem chain'_of_infix_pair {α : Type} {R : α → α → Prop} {l : List α}
    {u v : α} (h : List.Chain' R l) (hin : [u, v] <:+: l) : R u v := by
  obtain ⟨s, t, hst⟩ := hin
  have hsuf : ([u, v] ++ t) <:+ l :=
    ⟨s, by rw [← List.append_assoc]; exact hst⟩
  have := h.suffix hsuf
  exact (List.chain'_cons.mp this).1

theorem chainTurns_triple :
    ∀ {S : List (ℚ × ℚ)} {x y z : ℚ × ℚ},
      ChainTurns S → [z, y, x] <:+: S → 0 < cross x y z := by
  intro S
  induction S with
  | nil =>
    intro x y z _ hin
    exact absurd hin.length_le (by simp)
  | cons c S' ih =>
    intro x y z ht hin
    rcases List.infix_cons_iff.mp hin with hpre | hin'
    · obtain ⟨t, htt⟩ := hpre
      injection htt with h1 h2
      cases S' with
      | nil => exact absurd h2 (by simp)
      | cons b S'' =>
        injection h2 with h2 h3
        cases S'' with
        | nil => exact absurd h3 (by simp)
        | cons a S''' =>
          injection h3 with h3 h4
          rw [← h1, ← h2, ← h3] at ht
          exact ht.1
    · exact ih (chainTurns_tail ht) hin'

theorem turns_of_chron_triple {S : List (ℚ × ℚ)} {x y z : ℚ × ℚ}
    (ht : ChainTurns S) (hin : [x, y, z] <:+: S.reverse) :
    0 < cross x y z :=
  chainTurns_triple ht ((@List.reverse_infix _ [z, y, x] S).mp hin)

theorem left_of_chron_pair {S : List (ℚ × ℚ)} {q x y : ℚ × ℚ}
    (hg : GlobalLeftPt S q) (hin : [x, y] <:+: S.reverse) :
    0 ≤ cross x y q :=
  hg x y ((@List.reverse_infix _ [y, x] S).mp hin)

theorem pair_infix_append {α : Type} :
    ∀ (X Y : List α) (a b : α), [a, b] <:+: X ++ Y →
      [a, b] <:+: X ∨ [a, b] <:+: Y ∨
        (X.getLast? = some a ∧ Y.head? = some b) := by
  intro X
  induction X with
  | nil =>
    intro Y a b h
    rw [List.nil_append] at h
    exact Or.inr (Or.inl h)
  | cons x X' ih =>
    intro Y a b h
    rw [List.cons_append] at h
    rcases List.infix_cons_iff.mp h with hpre | hin
    · obtain ⟨t, ht⟩ := hpre
      injection ht with h1 h2
      cases X' with
      | nil =>
        rw [List.nil_append] at h2
        refine Or.inr (Or.inr ⟨?_, ?_⟩)
        · rw [h1]
          rfl
        · rw [← h2]
          rfl
      | cons y X'' =>
        injection h2 with h2 h3
        left
        rw [h1, h2]
        exact ⟨[], X'', rfl⟩
    · rcases ih Y a b hin with h1 | h1 | ⟨hl, hh⟩
      · exact Or.inl (h1.trans (List.suffix_cons x X').isInfix)
      · exact Or.inr (Or.inl h1)
      · refine Or.inr (Or.inr ⟨?_, hh⟩)
        cases X' with
        | nil => simp at hl
        | cons w W =>
          rw [List.getLast?_cons_cons]
          exact hl

theorem triple_infix_append {α : Type} :
    ∀ (X Y : List α) (a b c : α), [a, b, c] <:+: X ++ Y →
      [a, b, c] <:+: X ∨ [a, b, c] <:+: Y ∨
        (X.getLast? = some a ∧ [b, c] <+: Y) ∨
        ([a, b] <:+ X ∧ Y.head? = some c) := by
  intro X
  induction X with
  | nil =>
    intro Y a b c h
    rw [List.nil_append] at h
    exact Or.inr (Or.inl h)
  | cons x X' ih =>
    intro Y a b c h
    rw [List.cons_append] at h
    rcases List.infix_cons_iff.mp h with hpre | hin
    · obtain ⟨t, ht⟩ := hpre
      injection ht with h1 h2
      cases X' with
      | nil =>
        rw [List.nil_append] at h2
        refine Or.inr (Or.inr (Or.inl ⟨?_, ?_⟩))
        · rw [h1]
          rfl
        · exact ⟨t, h2⟩
      | cons y X'' =>
        injection h2 with h2 h3
        cases X'' with
        | nil =>
          replace h3 : c :: t = Y := by simpa using h3
          refine Or.inr (Or.inr (Or.inr ⟨?_, ?_⟩))
          · rw [h1, h2]
          · rw [← h3]
            rfl
        | cons z X''' =>
          injection h3 with h3 h4
          left
          rw [h1, h2, h3]
          exact ⟨[], X''', rfl⟩
    · rcases ih Y a b c hin with h1 | h1 | ⟨hl, hp⟩ | ⟨hs, hh⟩
      · exact Or.inl (h1.trans (List.suffix_cons x X').isInfix)
      · exact Or.inr (Or.inl h1)
      · refine Or.inr (Or.inr (Or.inl ⟨?_, hp⟩))
        cases X' with
        | nil => simp at hl
        | cons w W =>
          rw [List.getLast?_cons_cons]
          exact hl
      · exact Or.inr (Or.inr (Or.inr ⟨hs.trans (List.suffix_cons x X'), hh⟩))

theorem exists_last_two {α : Type} :
    ∀ (l : List α), 2 ≤ l.length → ∃ pre x y, l = pre ++ ([x, y] : List α) := by
  intro l
  induction l with
  | nil => intro h; exact absurd h (by simp)
  | cons a l' ih =>
    intro h
    cases l' with
    | nil => exact absurd h (by simp)
    | cons b l'' =>
      cases l'' with
      | nil => exact ⟨[], a, b, rfl⟩
      | cons c l''' =>
        obtain ⟨pre, x, y, hxy⟩ := ih (by simp)
        exact ⟨a :: pre, x, y, by rw [List.cons_append, ← hxy]⟩

theorem exists_concat_of_getLast? {α : Type} :
    ∀ (l : List α) (x : α), l.getLast? = some x → ∃ pre, l = pre ++ [x] := by
  intro l
  induction l with
  | nil => intro x h; exact absurd h (by simp)
  | cons a l' ih =>
    intro x h
    cases l' with
    | nil =>
      injection h with h
      have h' : a = x := h
      exact ⟨[], by simp [h']⟩
    | cons b l'' =>
      rw [List.getLast?_cons_cons] at h
      obtain ⟨pre, hpre⟩ := ih x h
      exact ⟨a :: pre, by rw [List.cons_append, ← hpre]⟩

theorem append_pair_inj {α : Type} {p q : List α} {a b c d : α}
    (h : p ++ [a, b] = q ++ [c, d]) : a = c ∧ b = d := by
  have h2 := congrArg List.reverse h
  rw [List.reverse_append, List.reverse_append,
    show ([a, b] : List α).reverse = [b, a] from rfl,
    show ([c, d] : List α).reverse = [d, c] from rfl] at h2
  injection h2 with h3 h4
  injection h4 with h4 h5
  exact ⟨h4, h3⟩

theorem mem_interior {α : Type} :
    ∀ (l : List α) (x : α), x ∈ l → l.head? ≠ some x →
      l.getLast? ≠ some x → ∃ a b, [a, x, b] <:+: l := by
  intro l
  induction l with
  | nil => intro x hx _ _; exact absurd hx (by simp)
  | cons c l' ih =>
    intro x hx hh hl
    rcases List.mem_cons.mp hx with rfl | hx'
    · exact absurd rfl hh
    · cases l' with
      | nil => exact absurd hx' (by simp)
      | cons d l'' =>
        by_cases hxd : x = d
        · cases l'' with
          | nil =>
            exfalso
            apply hl
            rw [hxd]
            rfl
          | cons e l''' =>
            exact ⟨c, e, ⟨[], l''', by rw [hxd]; rfl⟩⟩
        · have hh' : (d :: l'').head? ≠ some x := by
            intro hc
            injection hc with hc
            exact hxd hc.symm
          have hl' : (d :: l'').getLast? ≠ some x := by
            intro hc
            exact hl (by rw [List.getLast?_cons_cons]; exact hc)
          obtain ⟨a, b, hab⟩ := ih x hx' hh' hl'
          exact ⟨a, b, hab.trans (List.suffix_cons c (d :: l'')).isInfix⟩

theorem tail_reverse_eq {α : Type} (l : List α) :
    l.tail.reverse = l.reverse.dropLast := by
  cases l with
  | nil => rfl
  | cons a l' => rw [List.tail_cons, List.reverse_cons, List.dropLast_concat]

theorem ne_of_lexLt {p q : ℚ × ℚ} (h : lexLt p q) : p ≠ q :=
  fun he => lexLt_irrefl p (he ▸ h)

theorem cross_swap13 (o a b : ℚ × ℚ) : cross o a b = -cross b a o := by
  unfold cross
  ring

/-! ### Seam strictness and degenerate (collinear) inputs -/

/-- If the closing edge of one chain were collinear with the first vertex
of the other chain, every input point would lie on one line, contradicting
any strict turn. -/
theorem seam_strict {A : List (ℚ × ℚ)} {a pm u : ℚ × ℚ}
    (hapm : lexLt a pm) (hupm : lexLt u pm) (huA : u ∈ A)
    (hL : ∀ x ∈ A, 0 ≤ cross a pm x)
    (hU : ∀ x ∈ A, 0 ≤ cross pm u x)
    (hstrict : ∃ x ∈ A, ∃ y ∈ A, ∃ z ∈ A, 0 < cross x y z) :
    0 < cross a pm u := by
  rcases lt_or_eq_of_le (hL u huA) with h | h
  · exact h
  · exfalso
    have hcol : cross a pm u = 0 := h.symm
    have hzero : ∀ x ∈ A, cross pm u x = 0 := fun x hx =>
      le_antisymm (keySeam hcol hapm (lexLe_of_lexLt hupm)
        (ne_of_lexLt hupm) (hL x hx)) (hU x hx)
    obtain ⟨x, hx, y, hy, z, hz, hc⟩ := hstrict
    have hne : pm ≠ u := fun he => lexLt_irrefl u (he ▸ hupm)
    have := keyColl hne (hzero x hx) (hzero y hy) (hzero z hz)
    exact absurd this (ne_of_gt hc)

theorem turns_strict_triple {S pts : List (ℚ × ℚ)} (ht : ChainTurns S)
    (hlen : 3 ≤ S.length) (hsub : ∀ x ∈ S, x ∈ pts) :
    ∃ x ∈ pts, ∃ y ∈ pts, ∃ z ∈ pts, 0 < cross x y z := by
  cases S with
  | nil => exact absurd hlen (by simp)
  | cons c S' =>
    cases S' with
    | nil => exact absurd hlen (by simp)
    | cons b S'' =>
      cases S'' with
      | nil => exact absurd hlen (by simp)
      | cons a S''' =>
        exact ⟨a, hsub a (by simp), b, hsub b (by simp), c,
          hsub c (by simp), ht.1⟩

theorem lchain_globalLeft {pts : List (ℚ × ℚ)} (hpw : pts.Pairwise lexLt)
    (hne : pts ≠ []) {q : ℚ × ℚ} (hq : q ∈ pts) :
    GlobalLeftPt (buildChain [] pts) q := by
  have inv := buildChain_full hpw hne
  apply globalLeft _ q inv.sorted inv.turns (inv.range q hq)
  · exact fun t ht => inv.top_max q hq t ht
  · intro bt hbt
    rw [inv.last_head] at hbt
    cases pts with
    | nil => exact absurd rfl hne
    | cons h tl =>
      rw [List.head?_cons] at hbt
      injection hbt with hbt
      rcases List.mem_cons.mp hq with rfl | hq'
      · rw [← hbt]
        exact lexLe_refl _
      · rw [← hbt]
        exact lexLe_of_lexLt ((List.pairwise_cons.mp hpw).1 q hq')

theorem popWhile_len_le_one {pts : List (ℚ × ℚ)}
    (hcoll : ∀ a ∈ pts, ∀ b ∈ pts, ∀ c ∈ pts, cross a b c = 0) :
    ∀ S, (∀ x ∈ S, x ∈ pts) → ∀ p ∈ pts, (popWhile p S).length ≤ 1 := by
  intro S
  induction S with
  | nil => intro _ p _; simp [popWhile]
  | cons b S' ih =>
    intro hsub p hp
    cases S' with
    | nil => simp [popWhile]
    | cons a rest =>
      rw [popWhile, if_pos]
      · exact ih (fun x hx => hsub x (List.mem_cons_of_mem b hx)) p hp
      · rw [hcoll a (hsub a (by simp)) b (hsub b (by simp)) p hp]

theorem buildChain_len_le_two {pts : List (ℚ × ℚ)}
    (hcoll : ∀ a ∈ pts, ∀ b ∈ pts, ∀ c ∈ pts, cross a b c = 0) :
    ∀ (input S : List (ℚ × ℚ)), (∀ x ∈ input, x ∈ pts) →
      (∀ x ∈ S, x ∈ pts) → S.length ≤ 2 →
      (buildChain S input).length ≤ 2 := by
  intro input
  induction input with
  | nil => intro S _ _ h; exact h
  | cons p ps ih =>
    intro S hin hS hlen
    rw [buildChain]
    apply ih
    · exact fun x hx => hin x (List.mem_cons_of_mem p hx)
    · intro x hx
      rcases List.mem_cons.mp hx with rfl | hx'
      · exact hin x (by simp)
      · exact hS x ((popWhile_suffix p S).subset hx')
    · have := popWhile_len_le_one hcoll S hS p (hin p (by simp))
      simp only [List.length_cons]
      omega

theorem convex_hull_some_elim {pts0 H : List (ℚ × ℚ)}
    (h : _convex_hull (some pts0) = some H) :
    3 ≤ (sortedDedupPts pts0).length ∧
    H = (buildChain [] (sortedDedupPts pts0)).tail.reverse ++
        (buildChain [] (sortedDedupPts pts0).reverse).tail.reverse ∧
    3 ≤ H.length := by
  simp only [_convex_hull] at h
  split at h
  · exact absurd h (by simp)
  · split at h
    · exact absurd h (by simp)
    · split at h
      · injection h with h
        rename_i h3 hlen
        refine ⟨by omega, h.symm, ?_⟩
        rw [← h]
        exact hlen
      · exact absurd h (by simp)

theorem sdp_pairwise (pts0 : List (ℚ × ℚ)) :
    (sortedDedupPts pts0).Pairwise lexLt := by
  have hs : (sortedDedupPts pts0).Pairwise lexLe :=
    List.sorted_insertionSort lexLe pts0.dedup
  have hn : (sortedDedupPts pts0).Nodup :=
    (List.perm_insertionSort lexLe pts0.dedup).nodup_iff.mpr pts0.nodup_dedup
  exact (hs.and hn).imp (fun hab => lexLt_of_lexLe_of_ne hab.1 hab.2)

theorem sdp_mem (pts0 : List (ℚ × ℚ)) (x : ℚ × ℚ) :
    x ∈ sortedDedupPts pts0 ↔ x ∈ pts0 := by
  show x ∈ pts0.dedup.insertionSort lexLe ↔ x ∈ pts0
  rw [(List.perm_insertionSort lexLe pts0.dedup).mem_iff, List.mem_dedup]

theorem negPt_injective : Function.Injective negPt :=
  fun _ _ h => negPt_inj h

theorem getLast?_map_negPt (l : List (ℚ × ℚ)) :
    (l.map negPt).getLast? = l.getLast?.map negPt := by
  rw [← List.head?_reverse, ← List.map_reverse, List.head?_map,
    List.head?_reverse]

/-- All the facts needed about the upper chain, obtained from the chain
invariant of the negated, reversed input. -/
theorem uchain_facts {pts : List (ℚ × ℚ)} (hpw : pts.Pairwise lexLt)
    (hne : pts ≠ []) :
    ChainTurns (buildChain [] pts.reverse) ∧
    List.Chain' lexLt (buildChain [] pts.reverse) ∧
    (∀ x ∈ buildChain [] pts.reverse, x ∈ pts) ∧
    (∀ q ∈ pts, GlobalLeftPt (buildChain [] pts.reverse) q) ∧
    (buildChain [] pts.reverse).head? = pts.head? ∧
    (buildChain [] pts.reverse).getLast? = pts.getLast? := by
  have hpwN := pairwise_negPt_reverse hpw
  have hneN : (pts.reverse).map negPt ≠ [] := by
    intro hc
    apply hne
    have := congrArg List.length hc
    simp at this
    exact this
  have invN := buildChain_full hpwN hneN
  have hEq : buildChain [] ((pts.reverse).map negPt) =
      (buildChain [] pts.reverse).map negPt :=
    buildChain_map_negPt pts.reverse []
  rw [hEq] at invN
  refine ⟨?_, ?_, ?_, ?_, ?_, ?_⟩
  · exact chainTurns_of_map_negPt _ invN.turns
  · have h1 := invN.sorted
    rw [ChainSorted, List.chain'_map] at h1
    exact h1.imp (fun a b hab => lexLt_negPt.mp hab)
  · intro x hx
    have h1 := invN.sub (negPt x) (List.mem_map_of_mem negPt hx)
    obtain ⟨w, hw, hwx⟩ := List.mem_map.mp h1
    rw [← negPt_inj hwx]
    exact List.mem_reverse.mp hw
  · intro q hq
    apply globalLeft_of_map_negPt
    have h1 := lchain_globalLeft hpwN hneN
      (List.mem_map_of_mem negPt (List.mem_reverse.mpr hq))
    rw [hEq] at h1
    exact h1
  · have h1 := invN.head_last
    rw [List.head?_map, getLast?_map_negPt, List.getLast?_reverse] at h1
    exact Option.map_injective negPt_injective h1
  · have h1 := invN.last_head
    rw [getLast?_map_negPt, List.head?_map, List.head?_reverse] at h1
    exact Option.map_injective negPt_injective h1

/-- The full specification of a successfully returned hull: at least three
pairwise-distinct input points in strictly counter-clockwise cyclic order,
with every input point on or left of every directed hull edge. -/
theorem hull_some_spec {pts0 H : List (ℚ × ℚ)}
    (h : _convex_hull (some pts0) = some H) :
    3 ≤ H.length ∧ H.Nodup ∧ (∀ v ∈ H, v ∈ pts0) ∧
    (∀ a b c : ℚ × ℚ, [a, b, c] <:+: H ++ H.take 2 → 0 < cross a b c) ∧
    (∀ q ∈ pts0, ∀ a b : ℚ × ℚ, [a, b] <:+: H ++ H.take 1 →
      0 ≤ cross a b q) := by
  obtain ⟨hlen3, hH, hHlen⟩ := convex_hull_some_elim h
  have hpw : (sortedDedupPts pts0).Pairwise lexLt := sdp_pairwise pts0
  have hmem : ∀ x : ℚ × ℚ, x ∈ sortedDedupPts pts0 ↔ x ∈ pts0 :=
    sdp_mem pts0
  obtain ⟨pts, hpts⟩ : ∃ pts, sortedDedupPts pts0 = pts := ⟨_, rfl⟩
  rw [hpts] at hpw hmem hlen3 hH
  have hne : pts ≠ [] := by
    intro he
    rw [he] at hlen3
    simp at hlen3
  have invL := buildChain_full hpw hne
  obtain ⟨hUturns, hUchain, hUsub, hUleft, hUhead, hUlast⟩ :=
    uchain_facts hpw hne
  obtain ⟨lower, hlowdef⟩ : ∃ l, buildChain [] pts = l := ⟨_, rfl⟩
  obtain ⟨upper, huppdef⟩ : ∃ u, buildChain [] pts.reverse = u := ⟨_, rfl⟩
  rw [hlowdef] at invL
  rw [huppdef] at hUturns hUchain hUsub hUleft hUhead hUlast
  rw [hlowdef, huppdef] at hH
  have hLleft : ∀ q ∈ pts, GlobalLeftPt lower q := by
    intro q hq
    rw [← hlowdef]
    exact lchain_globalLeft hpw hne hq
  -- the extreme points of the sorted input
  obtain ⟨pmin, ptl, hpts1⟩ := List.exists_cons_of_ne_nil hne
  obtain ⟨pre2, x2, pmax, hpts2⟩ := exists_last_two pts (by omega)
  have hptsLast : pts.getLast? = some pmax := by
    rw [hpts2, show ([x2, pmax] : List (ℚ × ℚ)) = [x2] ++ [pmax] from rfl,
      ← List.append_assoc, List.getLast?_concat]
  have hnodup : pts.Nodup := hpw.imp (fun hab => ne_of_lexLt hab)
  have hptlne : ptl ≠ [] := by
    intro he
    rw [hpts1, he] at hlen3
    simp at hlen3
  have hpmaxtl : pmax ∈ ptl := by
    obtain ⟨c, tl2, hc⟩ := List.exists_cons_of_ne_nil hptlne
    rw [hpts1, hc, List.getLast?_cons_cons] at hptsLast
    obtain ⟨pre, hpre⟩ := exists_concat_of_getLast? _ pmax hptsLast
    rw [hc, hpre]
    simp
  have hpminne : pmin ≠ pmax := by
    have h1 : pmin ∉ ptl := (List.nodup_cons.mp (hpts1 ▸ hnodup)).1
    intro he
    rw [he] at h1
    exact h1 hpmaxtl
  have hLhead : lower.head? = some pmax := by
    rw [invL.head_last, hptsLast]
  have hLlast : lower.getLast? = some pmin := by
    rw [invL.last_head, hpts1]
    rfl
  have hUhead' : upper.head? = some pmin := by
    rw [hUhead, hpts1]
    rfl
  have hUlast' : upper.getLast? = some pmax := by
    rw [hUlast, hptsLast]
  -- both chains have at least two vertices
  have hLlen2 : 2 ≤ lower.length := by
    obtain ⟨x, T, hxT⟩ := List.exists_cons_of_ne_nil invL.ne
    cases T with
    | nil =>
      exfalso
      rw [hxT] at hLhead hLlast
      injection hLhead with h1
      injection hLlast with h2
      have h2' : x = pmin := h2
      exact hpminne (h2'.symm.trans h1)
    | cons z T' =>
      rw [hxT]
      simp
  have hUne : upper ≠ [] := by
    intro he
    rw [he] at hUhead'
    simp at hUhead'
  have hUlen2 : 2 ≤ upper.length := by
    obtain ⟨x, T, hxT⟩ := List.exists_cons_of_ne_nil hUne
    cases T with
    | nil =>
      exfalso
      rw [hxT] at hUhead' hUlast'
      injection hUhead' with h1
      injection hUlast' with h2
      have h2' : x = pmax := h2
      exact hpminne (h1.symm.trans h2')
    | cons z T' =>
      rw [hxT]
      simp
  -- decompose both chains at both ends
  obtain ⟨xh, T, hxT⟩ := List.exists_cons_of_ne_nil invL.ne
  have hTne : T ≠ [] := by
    intro he
    rw [hxT, he] at hLlen2
    simp at hLlen2
  obtain ⟨a2, ltl, hyT⟩ := List.exists_cons_of_ne_nil hTne
  have hldec : lower = pmax :: a2 :: ltl := by
    have hx : xh = pmax := by
      rw [hxT, List.head?_cons] at hLhead
      injection hLhead
    rw [hxT, hyT, hx]
  obtain ⟨preL, l1, ypm, hpreL0⟩ := exists_last_two lower hLlen2
  have hypm : ypm = pmin := by
    have h1 : lower.getLast? = some ypm := by
      rw [hpreL0, show ([l1, ypm] : List (ℚ × ℚ)) = [l1] ++ [ypm] from rfl,
        ← List.append_assoc, List.getLast?_concat]
    rw [h1] at hLlast
    injection hLlast
  have hpreL : lower = preL ++ [l1, pmin] := by
    rw [← hypm]
    exact hpreL0
  obtain ⟨xu, TU, hxTU⟩ := List.exists_cons_of_ne_nil hUne
  have hTUne : TU ≠ [] := by
    intro he
    rw [hxTU, he] at hUlen2
    simp at hUlen2
  obtain ⟨b2, utl, hyTU⟩ := List.exists_cons_of_ne_nil hTUne
  have hudec : upper = pmin :: b2 :: utl := by
    have hx : xu = pmin := by
      rw [hxTU, List.head?_cons] at hUhead'
      injection hUhead'
    rw [hxTU, hyTU, hx]
  obtain ⟨preU, u1, ypmx, hpreU0⟩ := exists_last_two upper hUlen2
  have hypmx : ypmx = pmax := by
    have h1 : upper.getLast? = some ypmx := by
      rw [hpreU0, show ([u1, ypmx] : List (ℚ × ℚ)) = [u1] ++ [ypmx] from rfl,
        ← List.append_assoc, List.getLast?_concat]
    rw [h1] at hUlast'
    injection hUlast'
  have hpreU : upper = preU ++ [u1, pmax] := by
    rw [← hypmx]
    exact hpreU0
  -- chronological chains
  have hLcChain : List.Chain' lexLt lower.reverse := by
    rw [List.chain'_reverse]
    exact invL.sorted
  have hLcPair : List.Pairwise lexLt lower.reverse :=
    List.chain'_iff_pairwise.mp hLcChain
  have hUPair : List.Pairwise lexLt upper :=
    List.chain'_iff_pairwise.mp hUchain
  obtain ⟨A, hAdef⟩ : ∃ A, lower.tail.reverse = A := ⟨_, rfl⟩
  obtain ⟨B, hBdef⟩ : ∃ B, upper.tail.reverse = B := ⟨_, rfl⟩
  rw [hAdef, hBdef] at hH
  have hAdrop : A = (lower.reverse).dropLast := by
    rw [← hAdef, tail_reverse_eq]
  have hBdrop : B = (upper.reverse).dropLast := by
    rw [← hBdef, tail_reverse_eq]
  have hLc : lower.reverse = A ++ [pmax] := by
    rw [hldec, List.reverse_cons, ← hAdef, hldec, List.tail_cons]
  have hUc : upper.reverse = B ++ [pmin] := by
    rw [hudec, List.reverse_cons, ← hBdef, hudec, List.tail_cons]
  have hLc2 : lower.reverse = pmin :: l1 :: preL.reverse := by
    rw [hpreL, List.reverse_append,
      show ([l1, pmin] : List (ℚ × ℚ)).reverse = [pmin, l1] from rfl]
    rfl
  have hUc3 : upper.reverse = pmax :: u1 :: preU.reverse := by
    rw [hpreU, List.reverse_append,
      show ([u1, pmax] : List (ℚ × ℚ)).reverse = [pmax, u1] from rfl]
    rfl
  have hUc2 : upper.reverse = utl.reverse ++ [b2, pmin] := by
    rw [hudec, List.reverse_cons, List.reverse_cons, List.append_assoc]
    rfl
  have hAhead : A.head? = some pmin := by
    rw [hAdrop, hLc2]
    rfl
  have hBhead : B.head? = some pmax := by
    rw [hBdrop, hUc3]
    rfl
  -- the two cyclic wrap vertices
  have htake2 : (A ++ B).take 2 = [pmin, l1] := by
    rw [hAdrop, hLc2]
    cases hpr : preL.reverse with
    | nil =>
      have hl1 : l1 = pmax := by
        have h2 := hLc
        rw [hAdrop, hLc2, hpr] at h2
        have h2' : ([pmin, l1] : List (ℚ × ℚ)) = [pmin] ++ [pmax] := h2
        injection h2' with e1 e2
        injection e2
      obtain ⟨B', hB'⟩ := exists_concat_of_getLast? B.reverse pmax
        (by rw [List.getLast?_reverse, hBhead])
      have hB2 : B = pmax :: B'.reverse := by
        have := congrArg List.reverse hB'
        rw [List.reverse_reverse, List.reverse_append] at this
        exact this
      rw [hB2]
      show ([pmin] ++ pmax :: B'.reverse).take 2 = [pmin, l1]
      rw [hl1]
      rfl
    | cons w ws =>
      rw [List.dropLast_cons₂, List.dropLast_cons₂]
      rfl
  have htake1 : (A ++ B).take 1 = [pmin] := by
    rw [hAdrop, hLc2, List.dropLast_cons₂]
    rfl
  -- leftness of the four boundary edges
  have hLlefthead : ∀ x ∈ pts, 0 ≤ cross a2 pmax x := by
    intro x hx
    exact hLleft x hx a2 pmax (by rw [hldec]; exact ⟨[], ltl, rfl⟩)
  have hUlefthead : ∀ x ∈ pts, 0 ≤ cross b2 pmin x := by
    intro x hx
    exact hUleft x hx b2 pmin (by rw [hudec]; exact ⟨[], utl, rfl⟩)
  have hUleftbot : ∀ x ∈ pts, 0 ≤ cross pmax u1 x := by
    intro x hx
    exact hUleft x hx pmax u1 (by rw [hpreU]; exact ⟨preU, [], by simp⟩)
  have hLleftbot : ∀ x ∈ pts, 0 ≤ cross pmin l1 x := by
    intro x hx
    exact hLleft x hx pmin l1 (by rw [hpreL]; exact ⟨preL, [], by simp⟩)
  -- a strict turn exists somewhere
  have hstrict : ∃ x ∈ pts, ∃ y ∈ pts, ∃ z ∈ pts, 0 < cross x y z := by
    have h1 : H.length = (lower.length - 1) + (upper.length - 1) := by
      rw [hH, List.length_append, ← hAdef, ← hBdef,
        List.length_reverse, List.length_reverse,
        List.length_tail, List.length_tail]
    have h2 : 3 ≤ lower.length ∨ 3 ≤ upper.length := by omega
    rcases h2 with h2 | h2
    · exact turns_strict_triple invL.turns h2 invL.sub
    · exact turns_strict_triple hUturns h2 hUsub
  -- both seam triples are strict turns
  have hsortL2 : ChainSorted (pmax :: a2 :: ltl) := hldec ▸ invL.sorted
  have hl1pmin : lexLt pmin l1 := by
    have hsortL : List.Chain' (fun u v => lexLt v u) lower := invL.sorted
    exact @chain'_of_infix_pair (ℚ × ℚ) (fun u v => lexLt v u) lower l1 pmin
      hsortL
      (show [l1, pmin] <:+: lower by rw [hpreL]; exact ⟨preL, [], by simp⟩)
  have hseam1 : 0 < cross a2 pmax u1 := by
    apply @seam_strict pts a2 pmax u1
    · exact (List.chain'_cons.mp hsortL2).1
    · exact chain'_of_infix_pair hUchain
        (by rw [hpreU]; exact ⟨preU, [], by simp⟩)
    · exact hUsub u1 (by rw [hpreU]; simp)
    · exact hLlefthead
    · exact hUleftbot
    · exact hstrict
  have hseam2 : 0 < cross b2 pmin l1 := by
    rw [← cross_negPt]
    apply @seam_strict (pts.map negPt) (negPt b2) (negPt pmin) (negPt l1)
    · exact lexLt_negPt.mpr (List.chain'_cons.mp (hudec ▸ hUchain)).1
    · exact lexLt_negPt.mpr hl1pmin
    · exact List.mem_map_of_mem negPt (invL.sub l1 (by rw [hpreL]; simp))
    · intro x hx
      obtain ⟨w, hw, rfl⟩ := List.mem_map.mp hx
      rw [cross_negPt]
      exact hUlefthead w hw
    · intro x hx
      obtain ⟨w, hw, rfl⟩ := List.mem_map.mp hx
      rw [cross_negPt]
      exact hLleftbot w hw
    · obtain ⟨x, hx, y, hy, z, hz, hc⟩ := hstrict
      exact ⟨negPt x, List.mem_map_of_mem negPt hx,
        negPt y, List.mem_map_of_mem negPt hy,
        negPt z, List.mem_map_of_mem negPt hz,
        by rw [cross_negPt]; exact hc⟩
  -- membership of hull vertices
  have hHmem : ∀ v ∈ H, v ∈ pts0 := by
    intro v hv
    rw [hH] at hv
    rw [← hmem v]
    rcases List.mem_append.mp hv with hv | hv
    · rw [← hAdef, List.mem_reverse] at hv
      exact invL.sub v (List.mem_of_mem_tail hv)
    · rw [← hBdef, List.mem_reverse] at hv
      exact hUsub v (List.mem_of_mem_tail hv)
  -- the hull has no repeated vertex
  have hAnodup : A.Nodup := by
    rw [hAdrop]
    exact ((List.dropLast_sublist _).nodup
      (hLcPair.imp (fun hab => ne_of_lexLt hab)))
  have hBnodup : B.Nodup := by
    rw [← hBdef, List.nodup_reverse]
    exact ((List.tail_sublist _).nodup
      (hUPair.imp (fun hab => ne_of_lexLt hab)))
  have hdisj : ∀ v, v ∈ A → v ∈ B → False := by
    intro v hvA hvB
    have hvLc : v ∈ lower.reverse := by
      rw [hAdrop] at hvA
      exact (List.dropLast_sublist _).subset hvA
    have hvUc : v ∈ upper.reverse := by
      rw [hBdrop] at hvB
      exact (List.dropLast_sublist _).subset hvB
    have hvne_max : v ≠ pmax := by
      have h1 := hLcPair
      rw [hLc] at h1
      exact ne_of_lexLt ((List.pairwise_append.mp h1).2.2 v hvA pmax (by simp))
    have hvne_min : v ≠ pmin := by
      have h1 := hUPair
      rw [hudec] at h1
      have hvtl : v ∈ b2 :: utl := by
        rw [← hBdef, hudec, List.tail_cons, List.mem_reverse] at hvB
        exact hvB
      exact (ne_of_lexLt ((List.pairwise_cons.mp h1).1 v hvtl)).symm
    have hLcHead : (lower.reverse).head? = some pmin := by
      rw [List.head?_reverse, hLlast]
    have hLcLast : (lower.reverse).getLast? = some pmax := by
      rw [List.getLast?_reverse, hLhead]
    have hUcHead : (upper.reverse).head? = some pmax := by
      rw [List.head?_reverse, hUlast']
    have hUcLast : (upper.reverse).getLast? = some pmin := by
      rw [List.getLast?_reverse, hUhead']
    obtain ⟨av, bv, hinL⟩ := mem_interior _ v hvLc
      (by rw [hLcHead]; intro hc; injection hc with hc; exact hvne_min hc.symm)
      (by rw [hLcLast]; intro hc; injection hc with hc; exact hvne_max hc.symm)
    obtain ⟨pv, nv, hinU⟩ := mem_interior _ v hvUc
      (by rw [hUcHead]; intro hc; injection hc with hc; exact hvne_max hc.symm)
      (by rw [hUcLast]; intro hc; injection hc with hc; exact hvne_min hc.symm)
    have hpairL : [av, v] <:+: lower.reverse :=
      (show ([av, v] : List (ℚ × ℚ)) <+: [av, v, bv] from ⟨[bv], rfl⟩).isInfix.trans hinL
    have hpairU : [pv, v] <:+: upper.reverse :=
      (show ([pv, v] : List (ℚ × ℚ)) <+: [pv, v, nv] from ⟨[nv], rfl⟩).isInfix.trans hinU
    have hav : lexLt av v := chain'_of_infix_pair hLcChain hpairL
    have hvp : lexLt v pv :=
      chain'_of_infix_pair hUchain ((@List.reverse_infix _ [v, pv] upper).mp hpairU)
    have havp : av ∈ pts :=
      invL.sub av (List.mem_reverse.mp (hpairL.subset (by simp)))
    have hpvp : pv ∈ pts :=
      hUsub pv (List.mem_reverse.mp (hpairU.subset (by simp)))
    have hnvp : nv ∈ pts :=
      hUsub nv (List.mem_reverse.mp (hinU.subset (by simp)))
    have h5 : 0 ≤ cross av v pv := left_of_chron_pair (hLleft pv hpvp) hpairL
    have h6 : 0 ≤ cross pv v av := left_of_chron_pair (hUleft av havp) hpairU
    have h7 : cross av v pv = 0 := by
      have h8 := cross_swap13 pv v av
      linarith [h5, h6, h8]
    have h8 : 0 ≤ cross av v nv := left_of_chron_pair (hLleft nv hnvp) hpairL
    have h9 : 0 ≤ cross v pv nv := keySeam' h7 hav (lexLe_of_lexLt hvp) h8
    have h10 : 0 < cross pv v nv := turns_of_chron_triple hUturns hinU
    have h11 := cross_swap12 v pv nv
    linarith [h9, h10, h11]
  have hHnodup : H.Nodup := by
    rw [hH]
    exact List.Nodup.append hAnodup hBnodup (fun v hv1 hv2 => hdisj v hv1 hv2)
  -- convexity of the cyclic order
  have hconv : ∀ aa bb cc : ℚ × ℚ, [aa, bb, cc] <:+: H ++ H.take 2 →
      0 < cross aa bb cc := by
    intro aa bb cc hin
    rw [hH, htake2] at hin
    have hin2 : [aa, bb, cc] <:+: A ++ (upper.reverse ++ [l1]) := by
      rw [List.append_assoc] at hin
      rw [hUc, List.append_assoc]
      exact hin
    rcases triple_infix_append _ _ _ _ _ hin2 with h1 | h1 | ⟨hl, hp⟩ | ⟨hs, hh⟩
    · have h2 : [aa, bb, cc] <:+: lower.reverse := by
        rw [hLc]
        exact h1.trans ⟨[], [pmax], by simp⟩
      exact turns_of_chron_triple invL.turns h2
    · rcases triple_infix_append _ _ _ _ _ h1 with h2 | h2 | ⟨hl2, hp2⟩ | ⟨hs2, hh2⟩
      · exact turns_of_chron_triple hUturns h2
      · exact absurd h2.length_le (by simp)
      · exact absurd hp2.length_le (by simp)
      · injection hh2 with hh2
        obtain ⟨pre3, hpre3⟩ := hs2
        have h3 := append_pair_inj (hpre3.trans hUc2)
        rw [h3.1, h3.2, ← hh2]
        exact hseam2
    · have haa : aa = a2 := by
        rw [← hAdef, hldec, List.tail_cons, List.getLast?_reverse] at hl
        injection hl with hl
        exact hl.symm
      obtain ⟨t4, ht4⟩ := hp
      rw [hUc3] at ht4
      have ht4' : bb :: cc :: t4 = pmax :: u1 :: (preU.reverse ++ [l1]) := by
        simpa using ht4
      injection ht4' with e1 e2
      injection e2 with e2 e3
      rw [haa, e1, e2]
      exact hseam1
    · have hcc : cc = pmax := by
        rw [hUc3, List.cons_append, List.head?_cons] at hh
        injection hh with hh
        exact hh.symm
      obtain ⟨pre5, hpre5⟩ := hs
      have h2 : [aa, bb, cc] <:+: lower.reverse := by
        refine ⟨pre5, [], ?_⟩
        rw [hLc, ← hpre5, hcc]
        simp
      exact turns_of_chron_triple invL.turns h2
  -- every input point is on or left of every hull edge
  have hcont : ∀ q ∈ pts0, ∀ aa bb : ℚ × ℚ, [aa, bb] <:+: H ++ H.take 1 →
      0 ≤ cross aa bb q := by
    intro q hq0 aa bb hin
    have hq : q ∈ pts := (hmem q).mpr hq0
    rw [hH, htake1] at hin
    have hin2 : [aa, bb] <:+: A ++ upper.reverse := by
      rw [List.append_assoc] at hin
      rw [hUc]
      exact hin
    rcases pair_infix_append _ _ _ _ hin2 with h1 | h1 | ⟨hl, hh⟩
    · have h2 : [aa, bb] <:+: lower.reverse := by
        rw [hLc]
        exact h1.trans ⟨[], [pmax], by simp⟩
      exact left_of_chron_pair (hLleft q hq) h2
    · exact left_of_chron_pair (hUleft q hq) h1
    · have haa : aa = a2 := by
        rw [← hAdef, hldec, List.tail_cons, List.getLast?_reverse] at hl
        injection hl with hl
        exact hl.symm
      have hbb : bb = pmax := by
        rw [hUc3] at hh
        injection hh with hh
        exact hh.symm
      rw [haa, hbb]
      exact hLlefthead q hq
  exact ⟨hHlen, hHnodup, hHmem, hconv, hcont⟩

/-- `_convex_hull` returns None exactly when fewer than three distinct
points remain after dedup, or all input points are collinear. -/
theorem hull_none_iff (pts0 : List (ℚ × ℚ)) :
    _convex_hull (some pts0) = none ↔
      ((sortedDedupPts pts0).length < 3 ∨
        ∀ p ∈ pts0, ∀ q ∈ pts0, ∀ r ∈ pts0, cross p q r = 0) := by
  by_cases h0 : pts0.length = 0
  · have hp0 : pts0 = [] := List.length_eq_zero.mp h0
    constructor
    · intro _
      left
      rw [hp0]
      simp [sortedDedupPts]
    · intro _
      simp only [_convex_hull, if_pos h0]
  · by_cases h3 : (sortedDedupPts pts0).length < 3
    · constructor
      · intro _
        exact Or.inl h3
      · intro _
        simp only [_convex_hull, if_neg h0]
        rw [if_pos h3]
    · have hmem : ∀ x : ℚ × ℚ, x ∈ sortedDedupPts pts0 ↔ x ∈ pts0 :=
        sdp_mem pts0
      have hpw := sdp_pairwise pts0
      obtain ⟨pts, hpts⟩ : ∃ pts, sortedDedupPts pts0 = pts := ⟨_, rfl⟩
      rw [hpts] at hpw hmem h3
      have hlen3 : 3 ≤ pts.length := by omega
      have hne : pts ≠ [] := by
        intro he
        rw [he] at hlen3
        simp at hlen3
      have hcoll_iff :
          (∀ p ∈ pts0, ∀ q ∈ pts0, ∀ r ∈ pts0, cross p q r = 0) ↔
          (∀ p ∈ pts, ∀ q ∈ pts, ∀ r ∈ pts, cross p q r = 0) := by
        constructor
        · intro h p hp q hq r hr
          exact h p ((hmem p).mp hp) q ((hmem q).mp hq) r ((hmem r).mp hr)
        · intro h p hp q hq r hr
          exact h p ((hmem p).mpr hp) q ((hmem q).mpr hq) r ((hmem r).mpr hr)
      have hLHS : _convex_hull (some pts0) = none ↔
          ¬ 3 ≤ ((buildChain [] pts).tail.reverse ++
            (buildChain [] pts.reverse).tail.reverse).length := by
        simp only [_convex_hull, if_neg h0]
        rw [hpts, if_neg (show ¬ pts.length < 3 by omega)]
        constructor
        · intro hnone hge
          rw [if_pos hge] at hnone
          exact absurd hnone (by simp)
        · intro hlt
          rw [if_neg hlt]
      rw [hpts, hLHS, hcoll_iff,
        or_iff_right (show ¬ pts.length < 3 by omega)]
      have invL := buildChain_full hpw hne
      obtain ⟨hUturns, hUchain, hUsub, hUleft, hUhead, hUlast⟩ :=
        uchain_facts hpw hne
      obtain ⟨lower, hlowdef⟩ : ∃ l, buildChain [] pts = l := ⟨_, rfl⟩
      obtain ⟨upper, huppdef⟩ : ∃ u, buildChain [] pts.reverse = u := ⟨_, rfl⟩
      rw [hlowdef] at invL
      rw [huppdef] at hUturns hUchain hUsub hUleft hUhead hUlast
      rw [hlowdef, huppdef]
      obtain ⟨pmin, ptl, hpts1⟩ := List.exists_cons_of_ne_nil hne
      obtain ⟨pre2, x2, pmax, hpts2⟩ := exists_last_two pts (by omega)
      have hptsLast : pts.getLast? = some pmax := by
        rw [hpts2, show ([x2, pmax] : List (ℚ × ℚ)) = [x2] ++ [pmax] from rfl,
          ← List.append_assoc, List.getLast?_concat]
      have hnodup : pts.Nodup := hpw.imp (fun hab => ne_of_lexLt hab)
      have hptlne : ptl ≠ [] := by
        intro he
        rw [hpts1, he] at hlen3
        simp at hlen3
      have hpmaxtl : pmax ∈ ptl := by
        obtain ⟨c, tl2, hc⟩ := List.exists_cons_of_ne_nil hptlne
        rw [hpts1, hc, List.getLast?_cons_cons] at hptsLast
        obtain ⟨pre, hpre⟩ := exists_concat_of_getLast? _ pmax hptsLast
        rw [hc, hpre]
        simp
      have hpminne : pmin ≠ pmax := by
        have h1 : pmin ∉ ptl := (List.nodup_cons.mp (hpts1 ▸ hnodup)).1
        intro he
        rw [he] at h1
        exact h1 hpmaxtl
      have hLhead : lower.head? = some pmax := by
        rw [invL.head_last, hptsLast]
      have hLlast : lower.getLast? = some pmin := by
        rw [invL.last_head, hpts1]
        rfl
      have hUhead' : upper.head? = some pmin := by
        rw [hUhead, hpts1]
        rfl
      have hUlast' : upper.getLast? = some pmax := by
        rw [hUlast, hptsLast]
      have hLlen2 : 2 ≤ lower.length := by
        obtain ⟨x, T, hxT⟩ := List.exists_cons_of_ne_nil invL.ne
        cases T with
        | nil =>
          exfalso
          rw [hxT] at hLhead hLlast
          injection hLhead with h1
          injection hLlast with h2
          have h2' : x = pmin := h2
          exact hpminne (h2'.symm.trans h1)
        | cons z T' =>
          rw [hxT]
          simp
      have hUne : upper ≠ [] := by
        intro he
        rw [he] at hUhead'
        simp at hUhead'
      have hUlen2 : 2 ≤ upper.length := by
        obtain ⟨x, T, hxT⟩ := List.exists_cons_of_ne_nil hUne
        cases T with
        | nil =>
          exfalso
          rw [hxT] at hUhead' hUlast'
          injection hUhead' with h1
          injection hUlast' with h2
          have h2' : x = pmax := h2
          exact hpminne (h1.symm.trans h2')
        | cons z T' =>
          rw [hxT]
          simp
      constructor
      · intro hlt
        have hlen : (lower.tail.reverse ++ upper.tail.reverse).length =
            (lower.length - 1) + (upper.length - 1) := by
          rw [List.length_append, List.length_reverse, List.length_reverse,
            List.length_tail, List.length_tail]
        have hlow2 : lower.length = 2 := by omega
        have hupp2 : upper.length = 2 := by omega
        have hlowE : lower = [pmax, pmin] := by
          obtain ⟨preX, xx, yy, hxy⟩ := exists_last_two lower hLlen2
          cases preX with
          | cons p preX' =>
            exfalso
            have h5 := congrArg List.length hxy
            rw [hlow2] at h5
            simp only [List.length_cons, List.length_append,
              List.length_nil] at h5
            omega
          | nil =>
            rw [List.nil_append] at hxy
            have hx : xx = pmax := by
              rw [hxy] at hLhead
              injection hLhead
            have hy : yy = pmin := by
              rw [hxy] at hLlast
              have h6 : ([xx, yy] : List (ℚ × ℚ)).getLast? = some yy := rfl
              rw [h6] at hLlast
              injection hLlast
            rw [hxy, hx, hy]
        have huppE : upper = [pmin, pmax] := by
          obtain ⟨preX, xx, yy, hxy⟩ := exists_last_two upper hUlen2
          cases preX with
          | cons p preX' =>
            exfalso
            have h5 := congrArg List.length hxy
            rw [hupp2] at h5
            simp only [List.length_cons, List.length_append,
              List.length_nil] at h5
            omega
          | nil =>
            rw [List.nil_append] at hxy
            have hx : xx = pmin := by
              rw [hxy] at hUhead'
              injection hUhead'
            have hy : yy = pmax := by
              rw [hxy] at hUlast'
              have h6 : ([xx, yy] : List (ℚ × ℚ)).getLast? = some yy := rfl
              rw [h6] at hUlast'
              injection hUlast'
            rw [hxy, hx, hy]
        intro p hp q hq r hr
        have hzero : ∀ x ∈ pts, cross pmin pmax x = 0 := by
          intro x hx
          have h1 : 0 ≤ cross pmin pmax x := by
            have h4 := lchain_globalLeft hpw hne hx
            rw [hlowdef] at h4
            exact h4 pmin pmax (by rw [hlowE])
          have h2 : 0 ≤ cross pmax pmin x :=
            hUleft x hx pmax pmin (by rw [huppE])
          have h3' := cross_swap12 pmax pmin x
          linarith [h1, h2, h3']
        exact keyColl hpminne (hzero p hp) (hzero q hq) (hzero r hr)
      · intro hcoll
        have hlow2 : lower.length ≤ 2 := by
          rw [← hlowdef]
          exact buildChain_len_le_two hcoll pts [] (fun x hx => hx)
            (by simp) (by simp)
        have hupp2 : upper.length ≤ 2 := by
          rw [← huppdef]
          exact buildChain_len_le_two hcoll pts.reverse []
            (fun x hx => List.mem_reverse.mp hx) (by simp) (by simp)
        intro hge
        rw [List.length_append, List.length_reverse, List.length_reverse,
          List.length_tail, List.length_tail] at hge
        omega

/-- C10: for every input array of 2D points, `_convex_hull` returns either
None or a list of at least 3 pairwise-distinct points drawn from the input
that form a convex polygon in counter-clockwise order (every cyclic triple
is a strict left turn) containing every input point on or inside it (every
input point is on or left of every directed cyclic edge); it returns None
exactly when the distinct input points number fewer than 3 or all input
points are collinear. -/
theorem C10_convex_hull (pts0 : List (ℚ × ℚ)) :
    _convex_hull none = none ∧
    (∀ H, _convex_hull (some pts0) = some H →
      3 ≤ H.length ∧ H.Nodup ∧ (∀ v ∈ H, v ∈ pts0) ∧
      (∀ a b c : ℚ × ℚ, [a, b, c] <:+: H ++ H.take 2 → 0 < cross a b c) ∧
      (∀ q ∈ pts0, ∀ a b : ℚ × ℚ, [a, b] <:+: H ++ H.take 1 →
        0 ≤ cross a b q)) ∧
    (_convex_hull (some pts0) = none ↔
      ((sortedDedupPts pts0).length < 3 ∨
        ∀ p ∈ pts0, ∀ q ∈ pts0, ∀ r ∈ pts0, cross p q r = 0)) :=
  ⟨rfl, fun _ h => hull_some_spec h, hull_none_iff pts0⟩

def sqPts : List (ℚ × ℚ) := [(0, 0), (1, 0), (1, 1), (0, 1)]

theorem sq_hull_eval : _convex_hull (some sqPts) = some sqPts := by
  norm_num [sqPts, _convex_hull, sortedDedupPts, buildChain, popWhile,
    cross, lexLe, List.insertionSort, List.orderedInsert, List.dedup,
    List.pwFilter]

/-- C10 witness: on the unit square the hull is returned (all four points,
counter-clockwise from the origin), the first cyclic triple is a strict
left turn, and the input point (1, 0) is on or left of the edge from
(1, 1) to (0, 1). -/
theorem C10_convex_hull_witness :
    _convex_hull (some sqPts) = some sqPts ∧
    0 < cross ((0 : ℚ), (0 : ℚ)) (1, 0) (1, 1) ∧
    0 ≤ cross ((1 : ℚ), (1 : ℚ)) (0, 1) (1, 0) := by
  have h := (C10_convex_hull sqPts).2.1 sqPts sq_hull_eval
  refine ⟨sq_hull_eval, ?_, ?_⟩
  · exact h.2.2.2.1 (0, 0) (1, 0) (1, 1)
      ⟨[], [(0, 1), (0, 0), (1, 0)], rfl⟩
  · exact h.2.2.2.2 (1, 0) (by simp [sqPts]) (1, 1) (0, 1)
      ⟨[(0, 0), (1, 0)], [(0, 0)], rfl⟩

end MimicMotion
